import Mathlib

/-!
Verification of the file-tree browser core (`files.rs`, with the earlier
rewrite `files2.rs` where claims refer to it), as a shallow embedding.

Modelling conventions:
* Filesystem paths are lists of components (`Path := List String`); `join`
  is concatenation, `parent` drops the last component.
* The slotmap arena is an association list `List (Nat × Entry)` with a
  fresh-id counter; slotmap key freshness is modelled by the counter.
* Filesystem effects are parameters (`Fs`): `read_dir` results, and the
  outcomes of create/remove/rename syscalls.  Where the program observes a
  syscall result, the model consults `Fs`; rename syscalls are additionally
  recorded in a trace so that "no rename was attempted" is expressible.
* Rust panics (slotmap indexing on a removed key, failed asserts, out of
  bounds indexing) leave no successor state; the model returns the tree
  unchanged at such points (with error `IoErrKind.other` where a result is
  produced), a sound over-approximation of the reachable state set.
* Recursions over the id graph (recursive delete, visible collection,
  depth) are fuelled; fuel exhaustion returns a harmless default, again an
  over-approximation.
-/

namespace FilesSpec

/-- A filesystem path, as its list of components. -/
abbrev Path := List String

/-! ### Orderings: the comparison machinery behind `cmp_entries` -/
def cmpNat (a b : Nat) : Ordering :=
  if a < b then .lt else if b < a then .gt else .eq

def cmpListBy (f : α → α → Ordering) : List α → List α → Ordering
  | [], [] => .eq
  | [], _ :: _ => .lt
  | _ :: _, [] => .gt
  | a :: as, b :: bs =>
    match f a b with
    | .eq => cmpListBy f as bs
    | o => o

def cmpChar (a b : Char) : Ordering := cmpNat a.toNat b.toNat

def cmpString (a b : String) : Ordering := cmpListBy cmpChar a.data b.data

def cmpPath (a b : Path) : Ordering := cmpListBy cmpString a b

/-- The laws a comparison function needs for sorted-insertion reasoning. -/
structure CmpLaws (f : α → α → Ordering) : Prop where
  swap_eq : ∀ a b, f a b = (f b a).swap
  lt_trans : ∀ {a b c}, f a b = .lt → f b c = .lt → f a c = .lt
  eq_congr : ∀ {a b}, f a b = .eq → ∀ c, f a c = f b c

/-! ### Derived order facts for a lawful comparison -/
def ordRank : Ordering → Nat
  | .lt => 0
  | .eq => 1
  | .gt => 2

/-! ### Association-list arena (the slotmap model) -/
def alGet : List (Nat × α) → Nat → Option α
  | [], _ => none
  | (k, v) :: m, j => if k = j then some v else alGet m j

/-- Update the value stored at a key (first occurrence), if present. -/
def alModify : List (Nat × α) → Nat → (α → α) → List (Nat × α)
  | [], _, _ => []
  | (k, v) :: m, j, f => if k = j then (k, f v) :: m else (k, v) :: alModify m j f

/-- Remove a key (slotmap `remove`). -/
def alRemove : List (Nat × α) → Nat → List (Nat × α)
  | [], _ => []
  | (k, v) :: m, j => if k = j then alRemove m j else (k, v) :: alRemove m j

/-- `Vec::insert` at an index (total: appends when the index is past the end). -/
def insAt : List α → Nat → α → List α
  | xs, 0, a => a :: xs
  | [], _ + 1, a => [a]
  | x :: xs, n + 1, a => x :: insAt xs n a

/-! ### The Rust `slice::binary_search_by` loop used by `insert_sorted_child` -/
/-- Each loop iteration shrinks `right - left`, so fuel `right - left`
makes this total and structurally recursive (the Rust loop terminates for
the same reason). -/
def binarySearchGo (f : Nat → Ordering) (xs : List Nat) : Nat → Nat → Nat → Nat
  | 0, left, _ => left
  | fuel + 1, left, right =>
    if left < right then
      match f (xs.getD (left + (right - left) / 2) 0) with
      | .lt => binarySearchGo f xs fuel (left + (right - left) / 2 + 1) right
      | .gt => binarySearchGo f xs fuel left (left + (right - left) / 2)
      | .eq => left + (right - left) / 2
    else left

/-- Stable insertion used to model Rust's stable `sort_by`: an element is
placed before the first strictly-greater element, after equal ones. -/
def insertStable (le : α → α → Bool) (a : α) : List α → List α
  | [] => [a]
  | b :: bs => if le a b && ! le b a then a :: b :: bs else b :: insertStable le a bs

/-- A stable sort (insertion sort); extensionally the behavior of Rust's
stable `sort_by` for a comparator that is a total preorder. -/
def sortStable (le : α → α → Bool) (xs : List α) : List α :=
  xs.foldl (fun acc x => insertStable le x acc) []

namespace Files

inductive EntryKind
  | Folder
  | File
deriving DecidableEq, Repr

/-- One node of the tree (`files.rs` `Entry`). -/
structure Entry where
  path : Path
  kind : EntryKind
  parent : Option Nat
  children : List Nat
  expanded : Bool
  visited : Bool
  marked : Bool
deriving DecidableEq, Repr

/-- Default used where slotmap indexing on a dead key would panic. -/
def junkEntry : Entry :=
  { path := [], kind := .File, parent := none, children := [],
    expanded := false, visited := false, marked := false }

structure VisibleEntry where
  id : Nat
  depth : Nat
deriving DecidableEq, Repr

structure FileTree where
  entries : List (Nat × Entry)
  nextId : Nat
  root : Nat
  selected : Nat
  visible : List VisibleEntry
  view_offset : Nat
  temp : List Nat
  cache : List Path
  create_flag : Bool
  notify_modify : Bool
  modify_from : Option Path
deriving DecidableEq, Repr

inductive IoErrKind
  | invalidInput
  | notFound
  | unsupported
  | other
deriving DecidableEq, Repr

deriving instance DecidableEq for Except

/-- The filesystem, as the results the tree observes from it. -/
structure Fs where
  listing : Path → List (Path × EntryKind)
  createDirRes : Path → Option IoErrKind
  createFileRes : Path → Option IoErrKind
  removeRes : Path → Option IoErrKind
  renameRes : Path → Path → Option IoErrKind

def MAX_VISIBLE : Nat := 40

def FILE_EXTENSIONS : List String := ["jpeg", "jpg", "png"]

def dsStoreSuffix : String := ".DS_Store"

/-- On the reversed character list of a file name: the characters after
the last dot (reversed), or `none` when there is no dot. -/
def charsAfterLastDot : List Char → Option (List Char)
  | [] => none
  | c :: cs => if c = '.' then some [] else (charsAfterLastDot cs).map (fun r => c :: r)

/-- Rust `Path::extension` on a single file name: the part after the last
dot, `none` when there is no dot or when nothing precedes the last dot
(hidden files like `.gitignore`). -/
def fileNameExtension (s : String) : Option String :=
  match charsAfterLastDot s.data.reverse with
  | none => none
  | some extRev =>
    if s.data.length = extRev.length + 1 then none
    else some (String.mk extRev.reverse)

def pathExtension (p : Path) : Option String :=
  match p.getLast? with
  | none => none
  | some s => fileNameExtension s

def pathParent (p : Path) : Option Path :=
  match p with
  | [] => none
  | _ => some p.dropLast

/-- `cmp_entries`: Folder before File, otherwise path order. -/
def cmp_entries (m : List (Nat × Entry)) (a b : Nat) : Ordering :=
  let ea := (alGet m a).getD junkEntry
  let eb := (alGet m b).getD junkEntry
  match ea.kind, eb.kind with
  | .Folder, .File => .lt
  | .File, .Folder => .gt
  | _, _ => cmpPath ea.path eb.path

def modifyEntry (t : FileTree) (id : Nat) (f : Entry → Entry) : FileTree :=
  { t with entries := alModify t.entries id f }

/-- The insertion position `insert_sorted_child` computes: Rust's
`binary_search_by(...).unwrap_or_else(|e| e)` over the parent's children. -/
def sortedInsertPos (m : List (Nat × Entry)) (parent child : Nat) : Nat :=
  binarySearchGo (fun cid => cmp_entries m cid child)
    ((alGet m parent).getD junkEntry).children
    ((alGet m parent).getD junkEntry).children.length 0
    ((alGet m parent).getD junkEntry).children.length

/-- `insert_sorted_child`: binary-search insertion into the parent's list. -/
def FileTree.insert_sorted_child (t : FileTree) (parent child : Nat) : FileTree :=
  modifyEntry t parent fun e =>
    { e with children := insAt e.children (sortedInsertPos t.entries parent child) child }

/-- `add`: fails (returns `none`) when the parent id is dead. -/
def FileTree.add (t : FileTree) (parent : Nat) (path : Path) (kind : EntryKind) :
    FileTree × Option Nat :=
  if (alGet t.entries parent).isSome then
    let id := t.nextId
    let e : Entry := { path := path, kind := kind, parent := some parent, children := [],
                       expanded := false, visited := false, marked := false }
    let t1 : FileTree := { t with entries := (id, e) :: t.entries, nextId := id + 1 }
    (t1.insert_sorted_child parent id, some id)
  else (t, none)

def depthGo (m : List (Nat × Entry)) : Nat → Nat → Nat
  | 0, _ => 0
  | fuel + 1, id =>
    match ((alGet m id).getD junkEntry).parent with
    | some p => depthGo m fuel p + 1
    | none => 0

/-- `depth`: length of the parent chain. -/
def FileTree.depth (t : FileTree) (id : Nat) : Nat :=
  depthGo t.entries t.entries.length id

def collectVisibleGo (t : FileTree) : Nat → Nat → List VisibleEntry
  | 0, _ => []
  | fuel + 1, id =>
    let e := (alGet t.entries id).getD junkEntry
    ⟨id, t.depth id⟩ ::
      (if e.kind = EntryKind.Folder ∧ e.expanded = true then
        e.children.flatMap (collectVisibleGo t fuel)
      else [])

/-- `visible_entries` / `collect_visible`: full pre-order rebuild from root. -/
def FileTree.visible_entries (t : FileTree) : List VisibleEntry :=
  collectVisibleGo t (t.entries.length + 1) t.root

/-- `enter`: toggle a folder (lazy-loading it once), or toggle a matching
file path in the image cache. -/
def FileTree.enter (fs : Fs) (t : FileTree) : FileTree :=
  let id := t.selected
  match alGet t.entries id with
  | none => t
  | some entry =>
    match entry.kind with
    | .Folder =>
      let t1 := modifyEntry t id fun e => { e with expanded := !e.expanded }
      let t2 :=
        if entry.visited then t1
        else
          let t1v := modifyEntry t1 id fun e => { e with visited := true }
          (fs.listing entry.path).foldl (fun acc pk => (acc.add id pk.1 pk.2).1) t1v
      { t2 with visible := t2.visible_entries }
    | .File =>
      match pathExtension entry.path with
      | some ext =>
        if ext ∈ FILE_EXTENSIONS then
          if entry.path ∈ t.cache then
            { t with cache := t.cache.filter (fun p => decide (p ≠ entry.path)) }
          else { t with cache := entry.path :: t.cache }
        else t
      | none => t

/-- `reset_visible`: collapse, clear the lazy-load state, re-expand. -/
def FileTree.reset_visible (fs : Fs) (t : FileTree) (id : Nat) : FileTree :=
  let t1 := { t with selected := id }
  let t2 := t1.enter fs
  let t3 := modifyEntry t2 id fun e => { e with visited := false, children := [] }
  t3.enter fs

inductive CreateEntryKind
  | folder (path : Path)
  | file (path : Path)
deriving DecidableEq, Repr

/-- `create`: create on disk under the resolved parent, add under the
selected entry, then reset the parent's visible range. -/
def FileTree.create (fs : Fs) (t : FileTree) (ck : CreateEntryKind) :
    FileTree × Except IoErrKind Unit :=
  let id := t.selected
  match alGet t.entries id with
  | none => (t, .error .other)
  | some entry =>
    let target? : Option (Nat × Path) :=
      match entry.kind with
      | .Folder => some (id, entry.path)
      | .File =>
        match entry.parent with
        | some pid => some (pid, ((alGet t.entries pid).getD junkEntry).path)
        | none => none
    match target? with
    | none => (t, .error .invalidInput)
    | some (entryId, parentPath) =>
      match ck with
      | .folder path =>
        match fs.createDirRes (parentPath ++ path) with
        | some e => (t, .error e)
        | none =>
          let t1 := (t.add id path .Folder).1
          (t1.reset_visible fs entryId, .ok ())
      | .file path =>
        match fs.createFileRes (parentPath ++ path) with
        | some e => (t, .error e)
        | none =>
          let t1 := (t.add id path .File).1
          (t1.reset_visible fs entryId, .ok ())

/-- `_delete_recursive`: remove the subtree below `id`, children first,
then the node itself.  Fuel bounds the recursion depth (the caller passes
the arena size, which bounds the depth of any acyclic subtree). -/
def delete_recursive : Nat → FileTree → Nat → FileTree
  | 0, t, _ => t
  | fuel + 1, t, id =>
    let cs := ((alGet t.entries id).getD junkEntry).children
    let t1 := cs.foldl (fun acc c => delete_recursive fuel acc c) t
    { t1 with entries := alRemove t1.entries id }

/-- `delete`: forbidden on root; removes on disk, detaches, removes the
subtree, repairs the selection from the stale visible list, rebuilds. -/
def FileTree.delete (fs : Fs) (t : FileTree) (id : Nat) :
    FileTree × Except IoErrKind Nat :=
  if id = t.root then (t, .error .invalidInput)
  else
    match alGet t.entries id with
    | none => (t, .error .other)
    | some entry =>
      match fs.removeRes entry.path with
      | some e => (t, .error e)
      | none =>
        match entry.parent with
        | none => (t, .error .other)
        | some parentId =>
          let t1 := modifyEntry t parentId fun pe =>
            { pe with children := pe.children.filter (fun cid => decide (cid ≠ id)) }
          let t2 := delete_recursive t1.entries.length t1 id
          let idx := (t2.visible.findIdx? (fun v => decide (v.id = t2.selected))).getD 1
          let t3 := { t2 with selected := (t2.visible.getD (idx - 1) ⟨0, 0⟩).id }
          ({ t3 with visible := t3.visible_entries }, .ok id)

inductive LoopExit
  | finished
  | earlyOk
  | earlyErr (e : IoErrKind)
  | panicked
deriving DecidableEq, Repr

def batchDeleteGo (fs : Fs) (root : Nat) : FileTree → List Nat → FileTree × LoopExit
  | t, [] => (t, .finished)
  | t, id :: rest =>
    if id = root then (t, .earlyOk)
    else
      match alGet t.entries id with
      | none => (t, .panicked)
      | some entry =>
        match fs.removeRes entry.path with
        | some e =>
          if e = .notFound then batchDeleteGo fs root t rest else (t, .earlyErr e)
        | none =>
          match entry.parent with
          | none => (t, .panicked)
          | some pid =>
            let t1 := modifyEntry t pid fun pe =>
              { pe with children := pe.children.filter (fun cid => decide (cid ≠ id)) }
            let t2 := delete_recursive t1.entries.length t1 id
            batchDeleteGo fs root t2 rest

def cmpOptNat : Option Nat → Option Nat → Ordering
  | none, none => .eq
  | none, some _ => .lt
  | some _, none => .gt
  | some a, some b => cmpNat a b

def posOf (vis : List VisibleEntry) (id : Nat) : Option Nat :=
  vis.findIdx? (fun v => decide (v.id = id))

/-- `Iterator::min_by` keeping the first minimum. -/
def minByPos (vis : List VisibleEntry) : List Nat → Option Nat
  | [] => none
  | x :: xs =>
    some (xs.foldl
      (fun acc y => if cmpOptNat (posOf vis y) (posOf vis acc) = .lt then y else acc) x)

/-- `batch_delete`: per-item delete with `NotFound` tolerated, then the
selection repair from the earliest marked position, clear, full rebuild. -/
def FileTree.batch_delete (fs : Fs) (t : FileTree) : FileTree × Except IoErrKind Unit :=
  match batchDeleteGo fs t.root t t.temp with
  | (t1, .earlyOk) => (t1, .ok ())
  | (t1, .earlyErr e) => (t1, .error e)
  | (t1, .panicked) => (t1, .error .other)
  | (t1, .finished) =>
    match minByPos t1.visible t1.temp with
    | none => (t1, .error .other)
    | some mId =>
      let idx := (t1.visible.findIdx? (fun v => decide (v.id = mId))).getD 1
      let t2 := { t1 with selected := (t1.visible.getD (idx - 1) ⟨0, 0⟩).id }
      let t3 := { t2 with temp := [] }
      ({ t3 with visible := t3.visible_entries }, .ok ())

def batchMoveGo (fs : Fs) (root newParent : Nat) :
    FileTree → List Nat → List (Path × Path) →
    FileTree × Option IoErrKind × List (Path × Path)
  | t, [], tr => (t, none, tr)
  | t, id :: rest, tr =>
    if id = root then batchMoveGo fs root newParent t rest tr
    else
      match ((alGet t.entries id).getD junkEntry).path.getLast? with
      | none => (t, some .other, tr)
      | some filename =>
        let oldpath := ((alGet t.entries id).getD junkEntry).path
        let newpath := ((alGet t.entries newParent).getD junkEntry).path ++ [filename]
        let tr1 := tr ++ [(oldpath, newpath)]
        match fs.renameRes oldpath newpath with
        | some e => (t, some e, tr1)
        | none =>
          let t1 :=
            match ((alGet t.entries id).getD junkEntry).parent with
            | some oldParent =>
              let ta := modifyEntry t oldParent fun pe =>
                { pe with children := pe.children.filter (fun cid => decide (cid ≠ id)) }
              let tb := modifyEntry ta oldParent fun pe => { pe with visited := false }
              let tc := modifyEntry tb oldParent fun pe => { pe with expanded := false }
              modifyEntry tc oldParent fun pe => { pe with children := [] }
            | none => t
          let t2 := modifyEntry t1 id fun e =>
            { e with path := newpath, marked := false, parent := some newParent }
          let t3 := modifyEntry t2 newParent fun e =>
            { e with visited := false, expanded := false, children := [] }
          batchMoveGo fs root newParent t3 rest tr1

def FileTree.sort_children (t : FileTree) (parentId : Nat) : FileTree :=
  modifyEntry t parentId fun e =>
    { e with children := sortStable (fun a b =>
        match cmp_entries t.entries a b with
        | .gt => false
        | _ => true) e.children }

/-- `batch_move`: move each marked entry under the selected entry,
invalidating both parents; the rename syscalls made are returned as a
trace (third component). -/
def FileTree.batch_move (fs : Fs) (t : FileTree) :
    FileTree × Except IoErrKind Unit × List (Path × Path) :=
  let newParent := t.selected
  let ids := t.temp
  if (alGet t.entries newParent).isSome then
    match batchMoveGo fs t.root newParent t ids [] with
    | (t1, some e, tr) => (t1, .error e, tr)
    | (t1, none, tr) =>
      let t2 := t1.sort_children newParent
      let t3 := { t2 with temp := [] }
      ({ t3 with visible := t3.visible_entries }, .ok (), tr)
  else (t, .ok (), [])

/-- `mark`: toggle the flag and (unconditionally) push onto the batch list. -/
def FileTree.mark (t : FileTree) : FileTree :=
  let id := t.selected
  match alGet t.entries id with
  | none => t
  | some _ =>
    { t with entries := alModify t.entries id (fun e => { e with marked := !e.marked }),
             temp := t.temp ++ [id] }

def FileTree.clear_marked (t : FileTree) : FileTree :=
  if t.temp.isEmpty then t
  else
    { t with
      entries :=
        t.temp.foldl (fun m i => alModify m i (fun e => { e with marked := false })) t.entries,
      temp := [] }

def FileTree.select_start (t : FileTree) : FileTree :=
  if t.visible.isEmpty then t
  else { t with selected := (t.visible.getD 0 ⟨0, 0⟩).id }

def FileTree.select_end (t : FileTree) : FileTree :=
  if t.visible.isEmpty then t
  else { t with selected := (t.visible.getD (t.visible.length - 1) ⟨0, 0⟩).id }

def FileTree.move_up (t : FileTree) : FileTree :=
  match t.visible.findIdx? (fun ve => decide (ve.id = t.selected)) with
  | some i =>
    if 0 < i then
      { t with selected := (t.visible.getD (i - 1) ⟨0, 0⟩).id,
               view_offset := t.view_offset - 1 }
    else t
  | none => t

def FileTree.move_down (t : FileTree) : FileTree :=
  match t.visible.findIdx? (fun ve => decide (ve.id = t.selected)) with
  | some i =>
    if i + 1 < t.visible.length then
      { t with selected := (t.visible.getD (i + 1) ⟨0, 0⟩).id,
               view_offset := if i + 1 ≥ t.view_offset + MAX_VISIBLE
                              then t.view_offset + 1 else t.view_offset }
    else t
  | none =>
    if t.visible.isEmpty then t
    else { t with selected := (t.visible.getD 0 ⟨0, 0⟩).id }

/-- `FileTree::new`: the root entry (expanded, not visited), its immediate
children from one directory read, and a first visible rebuild. -/
def FileTree.new (fs : Fs) (dir : Path) : FileTree :=
  let root := 0
  let rootEntry : Entry :=
    { path := dir, kind := .Folder, parent := none, children := [],
      expanded := true, visited := false, marked := false }
  let t0 : FileTree :=
    { entries := [(root, rootEntry)], nextId := 1, root := root, selected := root,
      visible := [], view_offset := 0, temp := [], cache := [],
      create_flag := false, notify_modify := false, modify_from := none }
  let t1 := (fs.listing dir).foldl (fun acc pk => (acc.add root pk.1 pk.2).1) t0
  { t1 with visible := t1.visible_entries }

inductive NotifyKind
  | createFile
  | createFolder
  | createOther
  | removeFile
  | removeFolder
  | removeOther
  | renameAny
  | otherKind
deriving DecidableEq, Repr

structure NotifyEvent where
  kind : NotifyKind
  path : Path
deriving DecidableEq, Repr

def pathIsDSStore (p : Path) : Bool :=
  match p.getLast? with
  | some s => dsStoreSuffix.data.isSuffixOf s.data
  | none => false

def alFindByPath (m : List (Nat × Entry)) (p : Path) : Option (Nat × Entry) :=
  m.find? (fun kv => decide (kv.2.path = p))

/-- `handle_notify`: the change-event reconciler. -/
def FileTree.handle_notify (fs : Fs) (t : FileTree) (ev : NotifyEvent) :
    FileTree × Except IoErrKind Unit :=
  if pathIsDSStore ev.path then (t, .ok ())
  else
    match ev.kind with
    | .createFile | .createFolder =>
      let entryKind := if ev.kind = .createFile then EntryKind.File else EntryKind.Folder
      (match pathParent ev.path with
       | some parentPath =>
         match alFindByPath t.entries parentPath with
         | some (pid, pentry) =>
           let expanded := pentry.expanded
           let t1 := (t.add pid ev.path entryKind).1
           if expanded then (t1.reset_visible fs pid, .ok ())
           else
             (modifyEntry t1 pid fun e => { e with visited := false, children := [] }, .ok ())
         | none => (t, .ok ())
       | none => (t, .ok ()))
    | .createOther => (t, .error .unsupported)
    | .removeFile | .removeFolder =>
      (match alFindByPath t.entries ev.path with
       | some (id, entry) =>
         match entry.parent with
         | some pid =>
           if id = t.root then (t, .error .other)
           else
             let t1 := modifyEntry t pid fun pe =>
               { pe with children := pe.children.filter (fun c => decide (c ≠ id)) }
             let t2 := delete_recursive t1.entries.length t1 id
             let t3 :=
               if (alGet t2.entries t2.selected).isNone then
                 let idx := (t2.visible.findIdx? (fun v => decide (v.id = t2.selected))).getD 1
                 { t2 with selected := (t2.visible.getD (idx - 1) ⟨0, 0⟩).id }
               else t2
             (t3.reset_visible fs pid, .ok ())
         | none => (t, .ok ())
       | none => (t, .ok ()))
    | .removeOther => (t, .error .unsupported)
    | .renameAny =>
      if t.notify_modify = false then
        ({ t with notify_modify := true, modify_from := some ev.path }, .ok ())
      else
        let t0 := { t with notify_modify := false }
        match t0.modify_from with
        | none => (t0, .error .invalidInput)
        | some pathFrom =>
          let oldEntry? := alFindByPath t0.entries pathFrom
          let newParent? :=
            match pathParent ev.path with
            | some pp => alFindByPath t0.entries pp
            | none => none
          match oldEntry?, newParent? with
          | some (oldId, oldEntry), some (newPid, _) =>
            (match oldEntry.parent with
             | some oldPid =>
               if oldId = t0.root then (t0, .error .other)
               else
                 let ta := modifyEntry t0 oldPid fun pe =>
                   { pe with children := pe.children.filter (fun c => decide (c ≠ oldId)) }
                 let tb := modifyEntry ta oldId fun e =>
                   { e with parent := some newPid, path := ev.path }
                 let tc := (tb.reset_visible fs oldId).reset_visible fs newPid
                 ({ tc with modify_from := none }, .ok ())
             | none => ({ t0 with modify_from := none }, .ok ()))
          | _, _ => ({ t0 with modify_from := none }, .ok ())
    | .otherKind => (t, .ok ())

/-- One user-driven or reconciler-driven mutation of the tree.  `replace`
covers `cd_parent` / `cd_selected`, which rebuild the tree wholesale. -/
inductive Step : FileTree → FileTree → Prop
  | enter (fs : Fs) (t : FileTree) : Step t (t.enter fs)
  | create (fs : Fs) (t : FileTree) (ck : CreateEntryKind) : Step t (t.create fs ck).1
  | delete (fs : Fs) (t : FileTree) (id : Nat) : Step t (t.delete fs id).1
  | batchDelete (fs : Fs) (t : FileTree) : Step t (t.batch_delete fs).1
  | batchMove (fs : Fs) (t : FileTree) : Step t (t.batch_move fs).1
  | mark (t : FileTree) : Step t t.mark
  | clearMarked (t : FileTree) : Step t t.clear_marked
  | selectStart (t : FileTree) : Step t t.select_start
  | selectEnd (t : FileTree) : Step t t.select_end
  | moveUp (t : FileTree) : Step t t.move_up
  | moveDown (t : FileTree) : Step t t.move_down
  | handleNotify (fs : Fs) (t : FileTree) (ev : NotifyEvent) :
      Step t (t.handle_notify fs ev).1
  | replace (fs : Fs) (t : FileTree) (dir : Path) : Step t (FileTree.new fs dir)

/-- States reachable from some construction by any mutation sequence. -/
def Reachable (t : FileTree) : Prop :=
  ∃ fs dir, Relation.ReflTransGen Step (FileTree.new fs dir) t

end Files

namespace Files2

inductive EntryKind
  | File
  | Folder
  | Symlink
  | Unknown
deriving DecidableEq, Repr

structure VisibleEntry where
  depth : Nat
  id : Nat
deriving DecidableEq, Repr

structure Entry where
  id : Nat
  path : Path
  kind : EntryKind
  parent : Option Nat
  children : Option (List Nat)
  expanded : Bool
  visited : Bool
  marked : Bool
deriving DecidableEq, Repr

/-- The `Ord` impl on `files2::Entry`: same kind by path, Folder before
File, every other kind pair `Equal`. -/
def entryCmp (a b : Entry) : Ordering :=
  if a.kind = b.kind then cmpPath a.path b.path
  else if a.kind = .Folder ∧ b.kind = .File then .lt
  else if a.kind = .File ∧ b.kind = .Folder then .gt
  else .eq

structure FileTree where
  entries : List (Nat × Entry)
  next_id : Nat
  selected : Nat
  visible : List VisibleEntry
  view_offset : Nat
  temp : List Nat
  create_flag : Bool
deriving DecidableEq, Repr

structure Fs2 where
  renameRes : Path → Path → Option Files.IoErrKind
  currentDir : Path

def FileTree.get_entry (t : FileTree) (id : Nat) : Option Entry :=
  alGet t.entries id

def FileTree.get_parent (t : FileTree) (id : Nat) : Option Entry :=
  match (alGet t.entries id).bind Entry.parent with
  | some pid => alGet t.entries pid
  | none => none

/-- The queue step of `visit_root`: push every child entry to the front,
in children-list order. -/
def pushChildrenFront (m : List (Nat × Entry)) (children : List Nat) (depth : Nat)
    (queue : List (Nat × Entry)) : List (Nat × Entry) :=
  children.foldl
    (fun q cid =>
      match alGet m cid with
      | some ce => (depth, ce) :: q
      | none => q)
    queue

def visitRootGo (m : List (Nat × Entry)) :
    Nat → List (Nat × Entry) → List VisibleEntry → List VisibleEntry
  | 0, _, acc => acc
  | _, [], acc => acc
  | fuel + 1, (depth, entry) :: queue, acc =>
    let acc1 := acc ++ [⟨depth, entry.id⟩]
    let queue1 :=
      if entry.expanded then
        match entry.children with
        | some children => pushChildrenFront m children (depth + 1) queue
        | none => queue
      else queue
    visitRootGo m fuel queue1 acc1

/-- `visit_root`: full rebuild of the visible list from the top-level
entries (the ones without a parent), sorted, then a front-pushing queue
walk. -/
def visit_root (m : List (Nat × Entry)) : List VisibleEntry :=
  let init := (m.filterMap (fun kv => if kv.2.parent = none then some kv.2 else none))
  let initSorted := sortStable (fun a b =>
    match entryCmp a b with
    | .gt => false
    | _ => true) init
  let queue := initSorted.map (fun e => ((0 : Nat), e))
  visitRootGo m ((m.length + 1) * (m.length + 1)) queue []

/-- The inner loop of `visit`: children of an expanded node are appended to
`to_insert` in order, and each expanded child is pushed to the queue front. -/
def visitCollectChildren (m : List (Nat × Entry)) (children : List Nat) (depth : Nat)
    (queue : List (Nat × Nat)) (toInsert : List VisibleEntry) :
    List (Nat × Nat) × List VisibleEntry :=
  children.foldl
    (fun (st : List (Nat × Nat) × List VisibleEntry) j =>
      match alGet m j with
      | some childEntry =>
        let toInsert1 := st.2 ++ [⟨depth, j⟩]
        let queue1 := if childEntry.expanded then (j, depth + 1) :: st.1 else st.1
        (queue1, toInsert1)
      | none => st)
    (queue, toInsert)

def visitDfsGo (m : List (Nat × Entry)) :
    Nat → List (Nat × Nat) → List VisibleEntry → List VisibleEntry
  | 0, _, acc => acc
  | _, [], acc => acc
  | fuel + 1, (i, depth) :: queue, acc =>
    match alGet m i with
    | some entry =>
      if entry.expanded then
        match entry.children with
        | some children =>
          let st := visitCollectChildren m children depth queue acc
          visitDfsGo m fuel st.1 st.2
        | none => visitDfsGo m fuel queue acc
      else visitDfsGo m fuel queue acc
    | none => visitDfsGo m fuel queue acc

/-- `visit`: the incremental visible update for one node — drain the
contiguous deeper run after it, then (if expanded) splice a DFS of the
expanded descendants, seeded from `self.selected`. -/
def FileTree.visit (t : FileTree) (id : Nat) : FileTree :=
  match alGet t.entries id with
  | some entry =>
    match entry.kind with
    | .Folder =>
      let expanded := entry.expanded
      match t.visible.findIdx? (fun v => decide (v.id = entry.id)) with
      | none => t
      | some i =>
        let d := (t.visible.getD i ⟨0, 0⟩).depth
        let run := ((t.visible.drop (i + 1)).takeWhile (fun v => decide (d < v.depth))).length
        let drained := t.visible.take (i + 1) ++ t.visible.drop (i + 1 + run)
        if expanded then
          let toInsert :=
            visitDfsGo t.entries ((t.entries.length + 1) * (t.entries.length + 1))
              [(t.selected, d + 1)] []
          { t with visible := drained.take (i + 1) ++ toInsert ++ drained.drop (i + 1) }
        else
          { t with visible := drained }
    | _ => t
  | none => t

/-- The destination-directory resolution inside `_rename`: an explicit
folder target is used as is; a file target stands for its parent; no (or
dead) target means the current working directory.  `none` models the
panic on a file entry with a dead parent id. -/
def resolveNewParentPath (fs : Fs2) (m : List (Nat × Entry)) (new_parent : Option Nat) :
    Option Path :=
  match new_parent.bind (fun pid => alGet m pid) with
  | some np =>
    if np.kind = .Folder then some np.path
    else
      match np.parent with
      | some p =>
        match alGet m p with
        | some e2 => some e2.path
        | none => none
      | none => some fs.currentDir
  | none => some fs.currentDir

/-- `_rename`: resolve the destination directory, skip when the computed
path equals the current one, otherwise rename on disk and reparent.
Returns the tree, the `Result` (payload: `old_parent_id`, or the original
id when nothing was done), and the rename syscalls attempted. -/
def FileTree.renameImpl (fs : Fs2) (t : FileTree) (id : Nat) (new_parent : Option Nat) :
    FileTree × Except Files.IoErrKind Nat × List (Path × Path) :=
  match alGet t.entries id with
  | none => (t, .ok id, [])
  | some entry =>
    match entry.path.getLast? with
    | none => (t, .error .other, [])
    | some filename =>
      let oldpath := entry.path
      match resolveNewParentPath fs t.entries new_parent with
      | none => (t, .error .other, [])
      | some newParentPath =>
        let newpath := newParentPath ++ [filename]
        if oldpath = newpath then (t, .ok id, [])
        else
          match fs.renameRes oldpath newpath with
          | some e => (t, .error e, [(oldpath, newpath)])
          | none =>
            let oldParentId :=
              match (alGet t.entries id).bind Entry.parent with
              | some pid =>
                match alGet t.entries pid with
                | some pe => pe.id
                | none => id
              | none => id
            let t1 :=
              match (alGet t.entries id).bind Entry.parent with
              | some pid =>
                match alGet t.entries pid with
                | some oldParent =>
                  match oldParent.children with
                  | some children =>
                    match children.findIdx? (fun c => decide (c = id)) with
                    | some i =>
                      let ta : FileTree :=
                        { t with entries := alModify t.entries pid (fun pe => { pe with children := some ((pe.children.getD []).eraseIdx i) }) }
                      match new_parent.bind (fun npid => alGet ta.entries npid) with
                      | some npe =>
                        if npe.kind = EntryKind.Folder then
                          { ta with entries := alModify ta.entries (new_parent.getD 0) (fun e => { e with children := some ((e.children.getD []) ++ [id]) }) }
                        else ta
                      | none => ta
                    | none => t
                  | none => t
                | none => t
              | none => t
            let newParentKind :=
              match new_parent.bind (fun pid => alGet t1.entries pid) with
              | some e => e.kind
              | none => EntryKind.File
            let t2 :=
              { t1 with entries := alModify t1.entries id (fun e =>
                  { e with path := newpath,
                           parent := if newParentKind = EntryKind.Folder then new_parent else none }) }
            (t2, .ok oldParentId, [(oldpath, newpath)])

end Files2

namespace Files

/-- A filesystem where every syscall succeeds: `r` contains the folder
`r/A`, which contains the file `r/A/x`. -/
def fsDemo : Fs :=
  { listing := fun p =>
      if p = ["r"] then [(["r", "A"], .Folder)]
      else if p = ["r", "A"] then [(["r", "A", "x"], .File)]
      else [],
    createDirRes := fun _ => none,
    createFileRes := fun _ => none,
    removeRes := fun _ => none,
    renameRes := fun _ _ => none }

/-- `FileTree::new` on `r`: entries `0 ↦ r`, `1 ↦ r/A`. -/
def tNew : FileTree := FileTree.new fsDemo ["r"]

/-- Select `r/A`. -/
def tSelA : FileTree := tNew.move_down

/-- Expand `r/A`, lazily loading `r/A/x` as entry 2. -/
def tExpA : FileTree := tSelA.enter fsDemo

/-- Select `r/A/x`, a descendant of `r/A`. -/
def tSelX : FileTree := tExpA.move_down

/-- Delete the folder `r/A` (entry 1) while its child `r/A/x` is selected. -/
def tAfterDelete : FileTree := (tSelX.delete fsDemo 1).1

/-- The no-op-move scenario: file `r/a.txt` (entry 1, marked) whose parent
is the root `r` (entry 0), which is also the selected move destination. -/
def noopEntry0 : Entry :=
  { path := ["r"], kind := .Folder, parent := none, children := [1],
    expanded := true, visited := true, marked := false }

def noopEntry1 : Entry :=
  { path := ["r", "a.txt"], kind := .File, parent := some 0, children := [],
    expanded := false, visited := false, marked := true }

def tNoop : FileTree :=
  { entries := [(0, noopEntry0), (1, noopEntry1)], nextId := 2, root := 0,
    selected := 0, visible := [⟨0, 0⟩, ⟨1, 1⟩], view_offset := 0, temp := [1],
    cache := [], create_flag := false, notify_modify := false, modify_from := none }

/-- The rename-pairing scenario: root `r` with expanded folders `r/a`
(containing `r/a/old.txt`, entry 3) and `r/b`; after the on-disk move,
reading `r/b` yields `r/b/new.txt`. -/
def fsPair : Fs :=
  { listing := fun p =>
      if p = ["r", "b"] then [(["r", "b", "new.txt"], .File)]
      else [],
    createDirRes := fun _ => none,
    createFileRes := fun _ => none,
    removeRes := fun _ => none,
    renameRes := fun _ _ => none }

def pairEntry0 : Entry :=
  { path := ["r"], kind := .Folder, parent := none, children := [1, 2],
    expanded := true, visited := true, marked := false }

def pairEntry1 : Entry :=
  { path := ["r", "a"], kind := .Folder, parent := some 0, children := [3],
    expanded := true, visited := true, marked := false }

def pairEntry2 : Entry :=
  { path := ["r", "b"], kind := .Folder, parent := some 0, children := [],
    expanded := true, visited := true, marked := false }

def pairEntry3 : Entry :=
  { path := ["r", "a", "old.txt"], kind := .File, parent := some 1, children := [],
    expanded := false, visited := false, marked := false }

def tPair : FileTree :=
  { entries := [(0, pairEntry0), (1, pairEntry1), (2, pairEntry2), (3, pairEntry3)],
    nextId := 4, root := 0, selected := 0,
    visible := [⟨0, 0⟩, ⟨1, 1⟩, ⟨3, 2⟩, ⟨2, 1⟩], view_offset := 0, temp := [],
    cache := [], create_flag := false, notify_modify := false, modify_from := none }

def evHalfA : NotifyEvent := { kind := .renameAny, path := ["r", "a", "old.txt"] }

def evHalfB : NotifyEvent := { kind := .renameAny, path := ["r", "b", "new.txt"] }

/-- The state after feeding both rename halves. -/
def tPaired : FileTree :=
  (((tPair.handle_notify fsPair evHalfA).1).handle_notify fsPair evHalfB).1

/-- The root-marked batch-move scenario. -/
def tRootMarked : FileTree := { tPair with temp := [0] }

/-- An image file selected: root `r` with child `r/pic.png` (entry 1). -/
def imgEntry0 : Entry :=
  { path := ["r"], kind := .Folder, parent := none, children := [1],
    expanded := true, visited := true, marked := false }

def imgEntry1 : Entry :=
  { path := ["r", "pic.png"], kind := .File, parent := some 0, children := [],
    expanded := false, visited := false, marked := false }

def tImg : FileTree :=
  { entries := [(0, imgEntry0), (1, imgEntry1)], nextId := 2, root := 0,
    selected := 1, visible := [⟨0, 0⟩, ⟨1, 1⟩], view_offset := 0, temp := [],
    cache := [], create_flag := false, notify_modify := false, modify_from := none }

end Files

namespace Files2

/-- The single-toggle scenario for `visit` vs `visit_root`: one expanded
top-level folder `a` with two file children `a/x`, `a/y` (in sorted
order), after the expansion flag was flipped but before the visible
refresh. -/
def togEntry0 : Entry :=
  { id := 0, path := ["a"], kind := .Folder, parent := none, children := some [1, 2],
    expanded := true, visited := true, marked := false }

def togEntry1 : Entry :=
  { id := 1, path := ["a", "x"], kind := .File, parent := some 0, children := none,
    expanded := false, visited := false, marked := false }

def togEntry2 : Entry :=
  { id := 2, path := ["a", "y"], kind := .File, parent := some 0, children := none,
    expanded := false, visited := false, marked := false }

def tToggle : FileTree :=
  { entries := [(0, togEntry0), (1, togEntry1), (2, togEntry2)], next_id := 3,
    selected := 0, visible := [⟨0, 0⟩], view_offset := 0, temp := [],
    create_flag := false }

/-- The `files2` no-op-move scenario (mirror of `Files.tNoop`). -/
def noop2Entry0 : Entry :=
  { id := 0, path := ["r"], kind := .Folder, parent := none, children := some [1],
    expanded := true, visited := true, marked := false }

def noop2Entry1 : Entry :=
  { id := 1, path := ["r", "a.txt"], kind := .File, parent := some 0, children := none,
    expanded := false, visited := false, marked := true }

def tNoop2 : FileTree :=
  { entries := [(0, noop2Entry0), (1, noop2Entry1)], next_id := 2, selected := 0,
    visible := [⟨0, 0⟩, ⟨1, 1⟩], view_offset := 0, temp := [1], create_flag := false }

def fs2Demo : Fs2 := { renameRes := fun _ _ => none, currentDir := ["r"] }

end Files2

namespace Files

def cmpKind : EntryKind → EntryKind → Ordering
  | .Folder, .File => .lt
  | .File, .Folder => .gt
  | _, _ => .eq

/-- The key `cmp_entries` effectively compares: kind rank, then path. -/
def cmpEK (a b : EntryKind × Path) : Ordering :=
  match cmpKind a.1 b.1 with
  | .eq => cmpPath a.2 b.2
  | o => o

def keyAt (m : List (Nat × Entry)) (x : Nat) : EntryKind × Path :=
  let e := (alGet m x).getD junkEntry
  (e.kind, e.path)

/-- The `<=` of the Ordering Policy on ids, under a given entry map. -/
def leE (m : List (Nat × Entry)) (a b : Nat) : Prop :=
  cmp_entries m a b ≠ .gt

/-- Every entry's children list is pairwise `<=`, except for ids in `B`
(used transiently while a subtree is being removed).  -/
def SortedListsExc (B : Nat → Prop) (m : List (Nat × Entry)) : Prop :=
  ∀ k e, ¬ B k → alGet m k = some e → e.children.Pairwise (leE m)

def SortedLists (m : List (Nat × Entry)) : Prop :=
  ∀ k e, alGet m k = some e → e.children.Pairwise (leE m)

/-- Children point back to the list owner, except for owners in `B`. -/
def CoherentExc (B : Nat → Prop) (m : List (Nat × Entry)) : Prop :=
  ∀ p ep, ¬ B p → alGet m p = some ep → ∀ c ∈ ep.children,
    ∃ ec, alGet m c = some ec ∧ ec.parent = some p

def Coherent (m : List (Nat × Entry)) : Prop :=
  ∀ p ep, alGet m p = some ep → ∀ c ∈ ep.children,
    ∃ ec, alGet m c = some ec ∧ ec.parent = some p

/-- Keys and children ids are below the fresh-id counter. -/
def Bounded (m : List (Nat × Entry)) (n : Nat) : Prop :=
  ∀ k e, alGet m k = some e → k < n ∧ ∀ c ∈ e.children, c < n

/-- A child id is always larger than its list owner's id: children
edges are only ever created by `add`, whose child id is fresh. -/
def ChildUp (m : List (Nat × Entry)) : Prop :=
  ∀ k e, alGet m k = some e → ∀ c ∈ e.children, k < c

/-- The inductive invariant behind the sort invariant. -/
def InvM (m : List (Nat × Entry)) (n : Nat) : Prop :=
  SortedLists m ∧ Coherent m ∧ Bounded m n ∧ ChildUp m

def Inv (t : FileTree) : Prop := InvM t.entries t.nextId

/-- The fold `_delete_recursive` performs over the children list. -/
def deleteRecFold (fuel : Nat) (t : FileTree) (cs : List Nat) : FileTree :=
  cs.foldl (fun acc c => delete_recursive fuel acc c) t

/-- Keys of the arena are pairwise distinct (true of a real slotmap,
where `alFindByPath`'s result is the binding `alGet` sees). -/
def KeysNodup (m : List (Nat × Entry)) : Prop := (m.map Prod.fst).Nodup

/-- The full inductive invariant carried through every mutation. -/
def InvT (t : FileTree) : Prop := Inv t ∧ KeysNodup t.entries

end Files

theorem cmpNat_lt_iff {a b : Nat} : cmpNat a b = .lt ↔ a < b := by
  unfold cmpNat
  split_ifs <;> simp_all

theorem cmpNat_gt_iff {a b : Nat} : cmpNat a b = .gt ↔ b < a := by
  unfold cmpNat
  split_ifs <;> simp_all
  omega

theorem cmpNat_eq_iff {a b : Nat} : cmpNat a b = .eq ↔ a = b := by
  unfold cmpNat
  split_ifs <;> simp_all <;> omega

theorem cmpNat_laws : CmpLaws cmpNat := by
  constructor
  · intro a b
    rcases Nat.lt_trichotomy a b with h | h | h
    · rw [cmpNat_lt_iff.mpr h, cmpNat_gt_iff.mpr h]
      rfl
    · subst h
      rw [cmpNat_eq_iff.mpr rfl]
      rfl
    · rw [cmpNat_gt_iff.mpr h, cmpNat_lt_iff.mpr h]
      rfl
  · intro a b c hab hbc
    rw [cmpNat_lt_iff] at *
    omega
  · intro a b hab c
    rw [cmpNat_eq_iff] at hab
    subst hab
    rfl

theorem CmpLaws.refl_eq {f : α → α → Ordering} (hf : CmpLaws f) (a : α) : f a a = .eq := by
  have h := hf.swap_eq a a
  cases hfa : f a a <;> rw [hfa] at h <;> first | rfl | exact absurd h (by simp [Ordering.swap])

theorem CmpLaws.gt_iff_lt {f : α → α → Ordering} (hf : CmpLaws f) {a b : α} :
    f a b = .gt ↔ f b a = .lt := by
  rw [hf.swap_eq a b]
  cases f b a <;> simp [Ordering.swap]

theorem CmpLaws.eq_iff_eq {f : α → α → Ordering} (hf : CmpLaws f) {a b : α} :
    f a b = .eq ↔ f b a = .eq := by
  rw [hf.swap_eq a b]
  cases f b a <;> simp [Ordering.swap]

theorem CmpLaws.eq_congr_right {f : α → α → Ordering} (hf : CmpLaws f) {b c : α}
    (h : f b c = .eq) (a : α) : f a b = f a c := by
  rw [hf.swap_eq a b, hf.swap_eq a c, hf.eq_congr (hf.eq_iff_eq.mp h) a]

theorem cmpListBy_laws {f : α → α → Ordering} (hf : CmpLaws f) : CmpLaws (cmpListBy f) := by
  constructor
  · intro a b
    induction a generalizing b with
    | nil => cases b <;> rfl
    | cons x xs ih =>
      cases b with
      | nil => rfl
      | cons y ys =>
        have hx := hf.swap_eq x y
        cases hyx : f y x <;> rw [hyx] at hx <;>
          simp [cmpListBy, hx, hyx, Ordering.swap, ih ys]
  · intro a b c hab hbc
    induction a generalizing b c with
    | nil =>
      cases b with
      | nil =>
        cases c <;> simp_all [cmpListBy]
      | cons y ys =>
        cases c with
        | nil => simp [cmpListBy] at hbc
        | cons z zs => rfl
    | cons x xs ih =>
      cases b with
      | nil => simp [cmpListBy] at hab
      | cons y ys =>
        cases c with
        | nil => simp [cmpListBy] at hbc
        | cons z zs =>
          simp only [cmpListBy] at hab hbc ⊢
          cases hxy : f x y <;> rw [hxy] at hab
          · cases hyz : f y z <;> rw [hyz] at hbc
            · rw [hf.lt_trans hxy hyz]
            · rw [← hf.eq_congr_right hyz x, hxy]
            · exact absurd hbc (by simp)
          · cases hyz : f y z <;> rw [hyz] at hbc
            · rw [hf.eq_congr hxy z, hyz]
            · rw [hf.eq_congr hxy z, hyz]
              exact ih hab hbc
            · exact absurd hbc (by simp)
          · exact absurd hab (by simp)
  · intro a b hab c
    induction a generalizing b c with
    | nil =>
      cases b with
      | nil => rfl
      | cons y ys => simp [cmpListBy] at hab
    | cons x xs ih =>
      cases b with
      | nil => simp [cmpListBy] at hab
      | cons y ys =>
        simp only [cmpListBy] at hab
        cases hxy : f x y <;> rw [hxy] at hab
        · exact absurd hab (by simp)
        · cases c with
          | nil => rfl
          | cons z zs =>
            simp only [cmpListBy]
            rw [hf.eq_congr hxy z]
            cases f y z
            · rfl
            · exact ih hab zs
            · rfl
        · exact absurd hab (by simp)

theorem cmpChar_laws : CmpLaws cmpChar := by
  constructor
  · intro a b
    exact cmpNat_laws.swap_eq _ _
  · intro a b c h1 h2
    exact cmpNat_laws.lt_trans h1 h2
  · intro a b h c
    exact cmpNat_laws.eq_congr h _

theorem cmpString_laws : CmpLaws cmpString := by
  constructor
  · intro a b
    exact (cmpListBy_laws cmpChar_laws).swap_eq _ _
  · intro a b c h1 h2
    exact (cmpListBy_laws cmpChar_laws).lt_trans h1 h2
  · intro a b h c
    exact (cmpListBy_laws cmpChar_laws).eq_congr h _

theorem cmpPath_laws : CmpLaws cmpPath := by
  constructor
  · intro a b
    exact (cmpListBy_laws cmpString_laws).swap_eq _ _
  · intro a b c h1 h2
    exact (cmpListBy_laws cmpString_laws).lt_trans h1 h2
  · intro a b h c
    exact (cmpListBy_laws cmpString_laws).eq_congr h _

theorem CmpLaws.le_of_lt_left {f : α → α → Ordering} (hf : CmpLaws f) {a b x : α}
    (hab : f a b ≠ .gt) (hbx : f b x = .lt) : f a x = .lt := by
  cases hfab : f a b
  · exact hf.lt_trans hfab hbx
  · rw [hf.eq_congr hfab x]
    exact hbx
  · exact absurd hfab hab

theorem CmpLaws.gt_of_le_right {f : α → α → Ordering} (hf : CmpLaws f) {a b x : α}
    (hab : f a b ≠ .gt) (hax : f a x = .gt) : f b x = .gt := by
  have hxa : f x a = .lt := hf.gt_iff_lt.mp hax
  cases hfab : f a b
  · exact hf.gt_iff_lt.mpr (hf.lt_trans hxa hfab)
  · rw [← hf.eq_congr hfab x]
    exact hax
  · exact absurd hfab hab

theorem CmpLaws.rank_mono {f : α → α → Ordering} (hf : CmpLaws f) {a b x : α}
    (hab : f a b ≠ .gt) : ordRank (f a x) ≤ ordRank (f b x) := by
  cases hax : f a x
  · simp [ordRank]
  · have hbx : f b x ≠ .lt := by
      intro hlt
      rw [hf.le_of_lt_left hab hlt] at hax
      cases hax
    cases hbxv : f b x
    · exact absurd hbxv hbx
    · simp [ordRank]
    · simp [ordRank]
  · rw [hf.gt_of_le_right hab hax]

theorem CmpLaws.le_trans_ne {f : α → α → Ordering} (hf : CmpLaws f) {a b c : α}
    (hab : f a b ≠ .gt) (hbc : f b c ≠ .gt) : f a c ≠ .gt := by
  cases hfab : f a b
  · cases hfbc : f b c
    · rw [hf.lt_trans hfab hfbc]
      simp
    · rw [← hf.eq_congr_right hfbc a, hfab]
      simp
    · exact absurd hfbc hbc
  · rw [hf.eq_congr hfab c]
    exact hbc
  · exact absurd hfab hab

theorem CmpLaws.le_total_ne {f : α → α → Ordering} (hf : CmpLaws f) (a b : α) :
    f a b ≠ .gt ∨ f b a ≠ .gt := by
  cases hfab : f a b
  · left; simp
  · left; simp
  · right
    rw [hf.gt_iff_lt.mp hfab]
    simp

theorem alGet_cons {k : Nat} {v : α} {m : List (Nat × α)} {j : Nat} :
    alGet ((k, v) :: m) j = if k = j then some v else alGet m j := rfl

theorem alGet_modify (m : List (Nat × α)) (k : Nat) (f : α → α) (j : Nat) :
    alGet (alModify m k f) j =
      if j = k then (alGet m k).map f else alGet m j := by
  induction m with
  | nil => simp [alGet, alModify]
  | cons kv m ih =>
    obtain ⟨a, v⟩ := kv
    by_cases hak : a = k
    · subst hak
      by_cases haj : a = j
      · subst haj
        simp [alModify, alGet]
      · have hja : ¬ j = a := fun h => haj h.symm
        simp [alModify, alGet_cons, haj, hja]
    · by_cases haj : a = j
      · subst haj
        simp [alModify, alGet_cons, hak]
      · simp only [alModify, if_neg hak, alGet_cons, if_neg haj]
        exact ih

theorem alGet_remove (m : List (Nat × α)) (k j : Nat) :
    alGet (alRemove m k) j = if j = k then none else alGet m j := by
  induction m with
  | nil => simp [alGet, alRemove]
  | cons kv m ih =>
    obtain ⟨a, v⟩ := kv
    by_cases hak : a = k
    · subst hak
      by_cases haj : a = j
      · subst haj
        simp [alRemove, alGet, ih]
      · simp only [alRemove, if_pos rfl, alGet_cons, if_neg haj]
        exact ih
    · by_cases haj : a = j
      · subst haj
        simp [alRemove, alGet_cons, hak]
      · simp only [alRemove, if_neg hak, alGet_cons, if_neg haj]
        exact ih

theorem mem_insAt {xs : List α} {p : Nat} {x y : α} :
    y ∈ insAt xs p x ↔ y = x ∨ y ∈ xs := by
  induction xs generalizing p with
  | nil =>
    cases p <;> simp [insAt]
  | cons z zs ih =>
    cases p with
    | zero => simp [insAt]
    | succ q =>
      simp [insAt, ih]
      tauto

theorem pairwise_insAt {le : α → α → Prop} {xs : List α} {x : α} {p : Nat}
    (hs : xs.Pairwise le)
    (hbefore : ∀ i, i < p → (h : i < xs.length) → le xs[i] x)
    (hafter : ∀ i, p ≤ i → (h : i < xs.length) → le x xs[i]) :
    (insAt xs p x).Pairwise le := by
  induction xs generalizing p with
  | nil =>
    cases p <;> simp [insAt]
  | cons z zs ih =>
    cases p with
    | zero =>
      refine List.Pairwise.cons ?_ hs
      intro y hy
      rcases List.mem_iff_getElem.mp hy with ⟨i, hi, rfl⟩
      exact hafter i (Nat.zero_le i) hi
    | succ q =>
      simp only [insAt]
      rcases List.pairwise_cons.mp hs with ⟨hz, hzs⟩
      refine List.Pairwise.cons ?_ ?_
      · intro y hy
        rcases mem_insAt.mp hy with rfl | hmem
        · exact hbefore 0 (Nat.succ_pos q) (by simp)
        · exact hz y hmem
      · refine ih hzs ?_ ?_
        · intro i hi hlen
          have := hbefore (i + 1) (Nat.succ_lt_succ hi) (by simpa using Nat.succ_lt_succ hlen)
          simpa using this
        · intro i hi hlen
          have := hafter (i + 1) (Nat.succ_le_succ hi) (by simpa using Nat.succ_lt_succ hlen)
          simpa using this

theorem binarySearchGo_spec (f : Nat → Ordering) (xs : List Nat)
    (mono : ∀ i j, i ≤ j → j < xs.length → ordRank (f (xs.getD i 0)) ≤ ordRank (f (xs.getD j 0)))
    (fuel l r : Nat) (hfuel : r - l ≤ fuel) (hr : r ≤ xs.length)
    (hl : ∀ i, i < l → i < xs.length → f (xs.getD i 0) ≠ .gt)
    (hrr : ∀ i, r ≤ i → i < xs.length → f (xs.getD i 0) ≠ .lt) :
    (∀ i, i < binarySearchGo f xs fuel l r → i < xs.length → f (xs.getD i 0) ≠ .gt) ∧
    (∀ i, binarySearchGo f xs fuel l r ≤ i → i < xs.length → f (xs.getD i 0) ≠ .lt) := by
  induction fuel generalizing l r with
  | zero =>
    have hrl : r ≤ l := by omega
    simp only [binarySearchGo]
    constructor
    · exact fun i hi hilen => hl i hi hilen
    · intro i hi hilen
      exact hrr i (by omega) hilen
  | succ fuel ih =>
    by_cases hlr : l < r
    · have hmidlt : l + (r - l) / 2 < r := by
        have : (r - l) / 2 < r - l := Nat.div_lt_self (by omega) (by omega)
        omega
      have hmidlen : l + (r - l) / 2 < xs.length := Nat.lt_of_lt_of_le hmidlt hr
      have hhalf : (r - l) / 2 < r - l := Nat.div_lt_self (by omega) (by omega)
      cases hmid : f (xs.getD (l + (r - l) / 2) 0) with
      | lt =>
        have hstep : binarySearchGo f xs (fuel + 1) l r =
            binarySearchGo f xs fuel (l + (r - l) / 2 + 1) r := by
          simp only [binarySearchGo, if_pos hlr, hmid]
        rw [hstep]
        refine ih (l + (r - l) / 2 + 1) r (by omega) hr ?_ hrr
        intro i hi hilen
        have hle : ordRank (f (xs.getD i 0)) ≤ ordRank (f (xs.getD (l + (r - l) / 2) 0)) := by
          by_cases hcase : i ≤ l + (r - l) / 2
          · exact mono i _ hcase hmidlen
          · omega
        rw [hmid] at hle
        intro hgt
        rw [hgt] at hle
        simp [ordRank] at hle
      | gt =>
        have hstep : binarySearchGo f xs (fuel + 1) l r =
            binarySearchGo f xs fuel l (l + (r - l) / 2) := by
          simp only [binarySearchGo, if_pos hlr, hmid]
        rw [hstep]
        refine ih l (l + (r - l) / 2) (by omega) (by omega) hl ?_
        intro i hi hilen
        have hle : ordRank (f (xs.getD (l + (r - l) / 2) 0)) ≤ ordRank (f (xs.getD i 0)) :=
          mono _ i hi hilen
        rw [hmid] at hle
        intro hlt
        rw [hlt] at hle
        simp [ordRank] at hle
      | eq =>
        have hstep : binarySearchGo f xs (fuel + 1) l r = l + (r - l) / 2 := by
          simp only [binarySearchGo, if_pos hlr, hmid]
        rw [hstep]
        constructor
        · intro i hi hilen
          have hle : ordRank (f (xs.getD i 0)) ≤ ordRank (f (xs.getD (l + (r - l) / 2) 0)) :=
            mono i _ (Nat.le_of_lt hi) hmidlen
          rw [hmid] at hle
          intro hgt
          rw [hgt] at hle
          simp [ordRank] at hle
        · intro i hi hilen
          have hle : ordRank (f (xs.getD (l + (r - l) / 2) 0)) ≤ ordRank (f (xs.getD i 0)) :=
            mono _ i hi hilen
          rw [hmid] at hle
          intro hlt
          rw [hlt] at hle
          simp [ordRank] at hle
    · have hstep : binarySearchGo f xs (fuel + 1) l r = l := by
        simp only [binarySearchGo, if_neg hlr]
      rw [hstep]
      constructor
      · exact fun i hi hilen => hl i hi hilen
      · intro i hi hilen
        exact hrr i (by omega) hilen

theorem mem_insertStable {le : α → α → Bool} {a y : α} {xs : List α} :
    y ∈ insertStable le a xs ↔ y = a ∨ y ∈ xs := by
  induction xs with
  | nil => simp [insertStable]
  | cons b bs ih =>
    simp only [insertStable]
    by_cases hc : le a b && ! le b a
    · rw [if_pos hc]
      simp
    · rw [if_neg hc]
      simp only [List.mem_cons, ih]
      tauto

theorem pairwise_insertStable {le : α → α → Bool} {a : α} {xs : List α}
    (htot : ∀ x y, le x y || le y x)
    (htr : ∀ x y z, le x y = true → le y z = true → le x z = true)
    (hs : xs.Pairwise (fun x y => le x y = true)) :
    (insertStable le a xs).Pairwise (fun x y => le x y = true) := by
  induction xs with
  | nil => simp [insertStable]
  | cons b bs ih =>
    rcases List.pairwise_cons.mp hs with ⟨hb, hbs⟩
    simp only [insertStable]
    by_cases hc : le a b && ! le b a
    · rw [if_pos hc]
      have hab : le a b = true := by
        have hc' := hc
        simp only [Bool.and_eq_true] at hc'
        exact hc'.1
      refine List.Pairwise.cons ?_ hs
      intro y hy
      rcases List.mem_cons.mp hy with rfl | hmem
      · exact hab
      · exact htr a b y hab (hb y hmem)
    · rw [if_neg hc]
      have hba : le b a = true := by
        by_cases h1 : le a b = true
        · by_cases h2 : le b a = true
          · exact h2
          · exact absurd (by simp [h1, h2]) hc
        · have := htot a b
          simp [h1] at this
          exact this
      refine List.Pairwise.cons ?_ (ih hbs)
      intro y hy
      rcases mem_insertStable.mp hy with rfl | hmem
      · exact hba
      · exact hb y hmem

theorem mem_sortStable {le : α → α → Bool} {xs : List α} {y : α} :
    y ∈ sortStable le xs ↔ y ∈ xs := by
  have hgen : ∀ (xs acc : List α),
      (y ∈ xs.foldl (fun acc x => insertStable le x acc) acc ↔ y ∈ xs ∨ y ∈ acc) := by
    intro xs
    induction xs with
    | nil => simp
    | cons x rest ih =>
      intro acc
      simp only [List.foldl_cons, ih, mem_insertStable]
      simp
      tauto
  simp [sortStable, hgen xs []]

theorem pairwise_sortStable {le : α → α → Bool} {xs : List α}
    (htot : ∀ x y, le x y || le y x)
    (htr : ∀ x y z, le x y = true → le y z = true → le x z = true) :
    (sortStable le xs).Pairwise (fun x y => le x y = true) := by
  have hgen : ∀ (xs acc : List α), acc.Pairwise (fun x y => le x y = true) →
      (xs.foldl (fun acc x => insertStable le x acc) acc).Pairwise
        (fun x y => le x y = true) := by
    intro xs
    induction xs with
    | nil => exact fun acc h => h
    | cons x rest ih =>
      intro acc hacc
      exact ih _ (pairwise_insertStable htot htr hacc)
  exact hgen xs [] List.Pairwise.nil

/-! ### Claim theorems (C1–C3, C5–C10; C4 follows the invariant section) -/
/-- C1: on the same entry map, the incremental update of a single toggle
(`files2::visit`) does not produce the sequence a full rebuild
(`files2::visit_root`) produces: on an expanded folder with two sorted
file children the incremental splice lists them in children order while
`visit_root`, which pushes children onto the front of its queue, lists
them reversed.  The primary refinement-equivalence invariant of the spec
fails on the code (acknowledged as a BUG in `files2.rs` comments). -/
theorem c1_visit_differs_from_visit_root :
    (Files2.tToggle.visit 0).visible =
      [{ depth := 0, id := 0 }, { depth := 1, id := 1 }, { depth := 1, id := 2 }] ∧
    Files2.visit_root Files2.tToggle.entries =
      [{ depth := 0, id := 0 }, { depth := 1, id := 2 }, { depth := 1, id := 1 }] ∧
    (Files2.tToggle.visit 0).visible ≠ Files2.visit_root Files2.tToggle.entries := by
  refine ⟨by decide, by decide, by decide⟩

/-- C2: after a successful `delete` of folder `r/A` (entry 1) while its
descendant `r/A/x` (entry 2) is selected, the new `selected` is the id of
the deleted folder itself, which no longer resolves in the entry store —
the selection-liveness claim fails on the code.  The state is built by
`new`, `move_down`, `enter`, `move_down` from a concrete filesystem. -/
theorem c2_delete_leaves_dead_selected :
    Files.tSelX.selected = 2 ∧
    (alGet Files.tSelX.entries 2).isSome = true ∧
    (Files.tSelX.delete Files.fsDemo 1).2 = .ok 1 ∧
    Files.tAfterDelete.selected = 1 ∧
    alGet Files.tAfterDelete.entries Files.tAfterDelete.selected = none := by
  refine ⟨by decide, by decide, by decide, by decide, by decide⟩

/-- C3 counterexample: `batch_move` with the root id in the marked set
does not fail with `InvalidInput` — it returns success (silently skipping
the root, with no rename syscall). -/
theorem c3_counterexample :
    (Files.tRootMarked.batch_move Files.fsPair).2.1 = .ok () ∧
    (Files.tRootMarked.batch_move Files.fsPair).2.2 = [] := by
  refine ⟨by decide, by decide⟩

/-- C3 amended: `delete(root)` fails with `InvalidInput` leaving the whole
state (and the filesystem) untouched; `batch_move`, however, silently
skips a marked root: no error, no rename syscall for it, the root's entry
itself unchanged (only the marked set is cleared and the visible sequence
rebuilt). -/
theorem c3_amended :
    (∀ (fs : Files.Fs) (t : Files.FileTree),
      t.delete fs t.root = (t, .error .invalidInput)) ∧
    (Files.tRootMarked.batch_move Files.fsPair).2.1 = .ok () ∧
    (Files.tRootMarked.batch_move Files.fsPair).2.2 = [] ∧
    alGet (Files.tRootMarked.batch_move Files.fsPair).1.entries 0 =
      alGet Files.tRootMarked.entries 0 ∧
    (Files.tRootMarked.batch_move Files.fsPair).1.temp = [] := by
  refine ⟨?_, by decide, by decide, by decide, by decide⟩
  intro fs t
  simp [Files.FileTree.delete]

/-- C5 counterexample: in `files.rs::batch_move`, a single marked entry
whose current parent equals the resolved destination is *not* a no-op: a
rename syscall with equal source and destination is attempted, and the
tree is changed well beyond the marked set — the (identical old and new)
parent is invalidated: child list emptied, `expanded`/`visited` cleared. -/
theorem c5_counterexample :
    (Files.tNoop.batch_move Files.fsDemo).2.2 = [(["r", "a.txt"], ["r", "a.txt"])] ∧
    (alGet (Files.tNoop.batch_move Files.fsDemo).1.entries 0).map Files.Entry.expanded =
      some false ∧
    (alGet Files.tNoop.entries 0).map Files.Entry.expanded = some true := by
  refine ⟨by decide, by decide, by decide⟩

/-- C5 amended: `files.rs::batch_move` issues the rename syscall even for
a no-op move (with source equal to destination), raises no error and does
not abort the batch, clears the marked set, but invalidates the parent
(children emptied, `expanded` and `visited` cleared, the moved entry left
orphaned with `marked` cleared); `files2::_rename`, by contrast, returns
early on `oldpath == newpath` with no syscall and no state change. -/
theorem c5_amended :
    ((Files.tNoop.batch_move Files.fsDemo).2.2 = [(["r", "a.txt"], ["r", "a.txt"])] ∧
     (Files.tNoop.batch_move Files.fsDemo).2.1 = .ok () ∧
     (Files.tNoop.batch_move Files.fsDemo).1.temp = [] ∧
     (alGet (Files.tNoop.batch_move Files.fsDemo).1.entries 0).map
        (fun e => (e.children, e.expanded, e.visited)) = some ([], false, false) ∧
     (alGet (Files.tNoop.batch_move Files.fsDemo).1.entries 1).map
        (fun e => (e.marked, e.parent, e.path)) =
       some (false, some 0, ["r", "a.txt"])) ∧
    (∀ (fs : Files2.Fs2) (t : Files2.FileTree) (id : Nat) (np : Option Nat)
        (e : Files2.Entry) (fn : String) (pp : Path),
      alGet t.entries id = some e →
      e.path.getLast? = some fn →
      Files2.resolveNewParentPath fs t.entries np = some pp →
      pp ++ [fn] = e.path →
      t.renameImpl fs id np = (t, .ok id, [])) := by
  refine ⟨⟨by decide, by decide, by decide, by decide, by decide⟩, ?_⟩
  intro fs t id np e fn pp h1 h2 h3 h4
  simp only [Files2.FileTree.renameImpl, h1, h2, h3]
  rw [if_pos h4.symm]

/-- C5 witness: the `files2::_rename` no-op branch at the concrete no-op
scenario — entry 1 (`r/a.txt`), destination the root folder 0. -/
theorem c5_amended_witness :
    Files2.tNoop2.renameImpl Files2.fs2Demo 1 (some 0) = (Files2.tNoop2, .ok 1, []) :=
  c5_amended.2 Files2.fs2Demo Files2.tNoop2 1 (some 0) Files2.noop2Entry1 "a.txt" ["r"]
    (by decide) (by decide) (by decide) (by decide)

/-- C6: immediately after construction, the root entry has
`expanded = true` and `visited = false`, violating the claimed invariant
`expanded ⇒ visited` (`new` loads the root's children itself but leaves
`visited` false, so the guard against re-reading is broken too). -/
theorem c6_root_expanded_not_visited :
    (alGet Files.tNew.entries Files.tNew.root).map (fun e => (e.expanded, e.visited)) =
      some (true, false) := by
  decide

/-- C7 counterexample: an event with an unrecognized create subkind makes
`handle_notify` return a hard `Unsupported` error (the tree is unchanged,
but the claim demanded success). -/
theorem c7_counterexample :
    Files.tPair.handle_notify Files.fsPair ⟨.createOther, ["r", "zz"]⟩ =
      (Files.tPair, .error .unsupported) := by
  decide

/-- C7 amended: unrecognized create/remove subkinds return an
`Unsupported` error (tree unchanged) and an unpaired second rename half
with an empty buffer returns `InvalidInput` — not success as claimed;
per-event problems of the *known* kinds do degrade to successful no-ops:
events of unmodelled kinds, creations whose parent path is unknown, and
rename pairs whose source path is unknown all return success. -/
theorem c7_amended :
    (∀ (fs : Files.Fs) (t : Files.FileTree) (p : Path), Files.pathIsDSStore p = false →
      t.handle_notify fs ⟨.createOther, p⟩ = (t, .error .unsupported)) ∧
    (∀ (fs : Files.Fs) (t : Files.FileTree) (p : Path), Files.pathIsDSStore p = false →
      t.handle_notify fs ⟨.removeOther, p⟩ = (t, .error .unsupported)) ∧
    (∀ (fs : Files.Fs) (t : Files.FileTree) (p : Path), Files.pathIsDSStore p = false →
      t.notify_modify = true → t.modify_from = none →
      t.handle_notify fs ⟨.renameAny, p⟩ =
        ({ t with notify_modify := false }, .error .invalidInput)) ∧
    (∀ (fs : Files.Fs) (t : Files.FileTree) (p : Path), Files.pathIsDSStore p = false →
      t.handle_notify fs ⟨.otherKind, p⟩ = (t, .ok ())) ∧
    (∀ (fs : Files.Fs) (t : Files.FileTree) (p pp : Path), Files.pathIsDSStore p = false →
      Files.pathParent p = some pp → Files.alFindByPath t.entries pp = none →
      t.handle_notify fs ⟨.createFile, p⟩ = (t, .ok ())) ∧
    (∀ (fs : Files.Fs) (t : Files.FileTree) (p pf : Path), Files.pathIsDSStore p = false →
      t.notify_modify = true → t.modify_from = some pf →
      Files.alFindByPath t.entries pf = none →
      t.handle_notify fs ⟨.renameAny, p⟩ =
        ({ t with notify_modify := false, modify_from := none }, .ok ())) := by
  refine ⟨?_, ?_, ?_, ?_, ?_, ?_⟩
  · intro fs t p hds
    simp [Files.FileTree.handle_notify, hds]
  · intro fs t p hds
    simp [Files.FileTree.handle_notify, hds]
  · intro fs t p hds hm hf
    simp [Files.FileTree.handle_notify, hds, hm, hf]
  · intro fs t p hds
    simp [Files.FileTree.handle_notify, hds]
  · intro fs t p pp hds hpp hfind
    simp [Files.FileTree.handle_notify, hds, hpp, hfind]
  · intro fs t p pf hds hm hf hfind
    simp [Files.FileTree.handle_notify, hds, hm, hf, hfind]

/-- C7 witness: the amended behaviors at concrete inputs. -/
theorem c7_amended_witness :
    Files.tPair.handle_notify Files.fsPair ⟨.removeOther, ["r", "zz"]⟩ =
      (Files.tPair, .error .unsupported) :=
  c7_amended.2.1 Files.fsPair Files.tPair ["r", "zz"] (by decide)

/-- C8 counterexample: after feeding the two rename halves
`r/a/old.txt` then `r/b/new.txt` (entry at the old path and directory
`r/b` both known), the renamed entry (id 3) does *not* appear in `b`'s
visible range — it is in no children list and absent from the visible
sequence (a freshly created duplicate id appears instead). -/
theorem c8_counterexample :
    ¬ (3 ∈ Files.tPaired.visible.map Files.VisibleEntry.id) ∧
    (alGet Files.tPaired.entries 2).map Files.Entry.children = some [4] := by
  refine ⟨by decide, by decide⟩

/-- C8 amended: the pairing updates the stored path and parent of the
renamed entry and removes it from `a`'s children, and the pending buffer
is cleared; but the entry itself is left orphaned — in no children list
and not visible; `b`'s children are re-read from disk instead, yielding a
fresh entry (id 4) with path `r/b/new.txt` which is what appears in `b`'s
visible range. -/
theorem c8_amended :
    (alGet Files.tPaired.entries 3).map (fun e => (e.path, e.parent)) =
      some (["r", "b", "new.txt"], some 2) ∧
    (alGet Files.tPaired.entries 1).map Files.Entry.children = some [] ∧
    Files.tPaired.notify_modify = false ∧
    Files.tPaired.modify_from = none ∧
    (alGet Files.tPaired.entries 2).map Files.Entry.children = some [4] ∧
    (alGet Files.tPaired.entries 4).map (fun e => (e.path, e.parent)) =
      some (["r", "b", "new.txt"], some 2) ∧
    Files.tPaired.visible.map Files.VisibleEntry.id = [0, 1, 2, 4] ∧
    ¬ (3 ∈ Files.tPaired.visible.map Files.VisibleEntry.id) := by
  refine ⟨by decide, by decide, by decide, by decide, by decide, by decide, by decide,
    by decide⟩

/-- C9 counterexample: `mark` pushes the selected id onto the batch list
unconditionally, so mark followed by unmark (on entry 1, starting from an
empty batch list) restores the `marked` flag but leaves the batch list as
`[1, 1]`, not its previous value `[]`. -/
theorem c9_counterexample :
    Files.tSelA.temp = [] ∧
    Files.tSelA.mark.mark.temp = [1, 1] ∧
    (alGet Files.tSelA.mark.mark.entries 1).map Files.Entry.marked = some false := by
  refine ⟨by decide, by decide, by decide⟩

/-- C9 amended: `mark` toggles the selected entry's `marked` flag and
appends the id to the batch list on *every* call (also when unmarking);
no other entry, no other field of the entry, and no other tree state
changes (and no filesystem call is made — `mark` does not consult the
filesystem at all); hence mark-then-unmark restores the flag but appends
the id twice. -/
theorem c9_amended (t : Files.FileTree) (e : Files.Entry)
    (h : alGet t.entries t.selected = some e) :
    (alGet t.mark.entries t.selected).map Files.Entry.marked = some (!e.marked) ∧
    (alGet t.mark.entries t.selected).map Files.Entry.path = some e.path ∧
    (alGet t.mark.entries t.selected).map Files.Entry.kind = some e.kind ∧
    (alGet t.mark.entries t.selected).map Files.Entry.children = some e.children ∧
    (alGet t.mark.entries t.selected).map Files.Entry.parent = some e.parent ∧
    (∀ k, k ≠ t.selected → alGet t.mark.entries k = alGet t.entries k) ∧
    t.mark.temp = t.temp ++ [t.selected] ∧
    t.mark.selected = t.selected ∧
    t.mark.visible = t.visible ∧
    t.mark.cache = t.cache ∧
    (alGet t.mark.mark.entries t.selected).map Files.Entry.marked = some e.marked ∧
    t.mark.mark.temp = t.temp ++ [t.selected, t.selected] := by
  have mark_eq : ∀ (s : Files.FileTree) (x : Files.Entry),
      alGet s.entries s.selected = some x →
      s.mark = { s with
        entries := alModify s.entries s.selected (fun y => { y with marked := !y.marked }),
        temp := s.temp ++ [s.selected] } := by
    intro s x hx
    simp [Files.FileTree.mark, hx]
  have hmark := mark_eq t e h
  have hsel : t.mark.selected = t.selected := by rw [hmark]
  have hget : alGet t.mark.entries t.selected = some { e with marked := !e.marked } := by
    rw [hmark]
    simp [alGet_modify, h]
  have hget' : alGet t.mark.entries t.mark.selected = some { e with marked := !e.marked } := by
    rw [hsel]
    exact hget
  have hmark2 := mark_eq t.mark _ hget'
  have hget2 : alGet t.mark.mark.entries t.selected =
      some { e with marked := !(!e.marked) } := by
    rw [hmark2]
    simp only [hsel]
    simp [alGet_modify, hget]
  refine ⟨?_, ?_, ?_, ?_, ?_, ?_, ?_, ?_, ?_, ?_, ?_, ?_⟩
  · rw [hget]; rfl
  · rw [hget]; rfl
  · rw [hget]; rfl
  · rw [hget]; rfl
  · rw [hget]; rfl
  · intro k hk
    rw [hmark]
    simp [alGet_modify, hk]
  · rw [hmark]
  · rw [hmark]
  · rw [hmark]
  · rw [hmark]
  · rw [hget2]
    simp
  · rw [hmark2]
    simp only [hsel]
    rw [hmark]
    simp

/-- C9 witness: the amended mark/unmark behavior on the selected entry
`r/A` of the concrete tree. -/
theorem c9_amended_witness :
    Files.tSelA.mark.temp = Files.tSelA.temp ++ [Files.tSelA.selected] ∧
    Files.tSelA.mark.mark.temp =
      Files.tSelA.temp ++ [Files.tSelA.selected, Files.tSelA.selected] :=
  ⟨(c9_amended Files.tSelA
      { path := ["r", "A"], kind := .Folder, parent := some 0, children := [],
        expanded := false, visited := false, marked := false } (by decide)).2.2.2.2.2.2.1,
   (c9_amended Files.tSelA
      { path := ["r", "A"], kind := .Folder, parent := some 0, children := [],
        expanded := false, visited := false, marked := false } (by decide)).2.2.2.2.2.2.2.2.2.2.2⟩

/-- C10: `enter` on a selected `File` whose extension is one of
`jpeg`/`jpg`/`png` toggles exactly that path's membership in the image
cache and changes nothing else; for any other extension (or none) `enter`
changes nothing at all. -/
theorem c10_enter_file_cache_toggle (fs : Files.Fs) (t : Files.FileTree) (e : Files.Entry)
    (hsel : alGet t.entries t.selected = some e) (hkind : e.kind = Files.EntryKind.File) :
    (∀ ext, Files.pathExtension e.path = some ext → ext ∈ Files.FILE_EXTENSIONS →
      ((e.path ∈ (t.enter fs).cache ↔ ¬ e.path ∈ t.cache) ∧
       (∀ q, q ≠ e.path → (q ∈ (t.enter fs).cache ↔ q ∈ t.cache)) ∧
       (t.enter fs).entries = t.entries ∧
       (t.enter fs).visible = t.visible ∧
       (t.enter fs).selected = t.selected ∧
       (t.enter fs).view_offset = t.view_offset ∧
       (t.enter fs).temp = t.temp)) ∧
    ((∀ ext, Files.pathExtension e.path = some ext → ¬ ext ∈ Files.FILE_EXTENSIONS) →
      Files.pathExtension e.path ≠ none → t.enter fs = t) ∧
    (Files.pathExtension e.path = none → t.enter fs = t) := by
  have henter : t.enter fs =
      (match Files.pathExtension e.path with
       | some ext =>
         if ext ∈ Files.FILE_EXTENSIONS then
           if e.path ∈ t.cache then
             { t with cache := t.cache.filter (fun p => decide (p ≠ e.path)) }
           else { t with cache := e.path :: t.cache }
         else t
       | none => t) := by
    simp only [Files.FileTree.enter, hsel, hkind]
  refine ⟨?_, ?_, ?_⟩
  · intro ext hext hin
    rw [henter, hext]
    simp only [if_pos hin]
    by_cases hc : e.path ∈ t.cache
    · rw [if_pos hc]
      refine ⟨?_, ?_, rfl, rfl, rfl, rfl, rfl⟩
      · simp [List.mem_filter, hc]
      · intro q hq
        simp [List.mem_filter, hq]
    · rw [if_neg hc]
      refine ⟨?_, ?_, rfl, rfl, rfl, rfl, rfl⟩
      · simp [hc]
      · intro q hq
        simp [hq]
  · intro hno hsome
    rw [henter]
    cases hext : Files.pathExtension e.path with
    | none => rfl
    | some ext =>
      simp only [if_neg (hno ext hext)]
  · intro hnone
    rw [henter, hnone]

/-- C10 witness: entering the selected `r/pic.png` inserts it into the
empty cache and leaves the rest of the state unchanged. -/
theorem c10_witness :
    (Files.tImg.enter Files.fsDemo).cache = [["r", "pic.png"]] ∧
    (Files.tImg.enter Files.fsDemo).entries = Files.tImg.entries := by
  have h := c10_enter_file_cache_toggle Files.fsDemo Files.tImg Files.imgEntry1
    (by decide) (by decide)
  have h1 := h.1 "png" (by decide) (by decide)
  refine ⟨?_, h1.2.2.1⟩
  have hins : ["r", "pic.png"] ∈ (Files.tImg.enter Files.fsDemo).cache :=
    (h1.1).mpr (by decide)
  decide

namespace Files

theorem cmpKind_laws : CmpLaws cmpKind := by
  constructor
  · intro a b
    cases a <;> cases b <;> rfl
  · intro a b c h1 h2
    cases a <;> cases b <;> cases c <;> simp_all [cmpKind]
  · intro a b h c
    cases a <;> cases b <;> cases c <;> simp_all [cmpKind]

theorem cmpEK_laws : CmpLaws cmpEK := by
  constructor
  · intro a b
    simp only [cmpEK]
    have h := cmpKind_laws.swap_eq a.1 b.1
    cases hk : cmpKind b.1 a.1 <;> rw [hk] at h <;> rw [h] <;>
      simp [Ordering.swap, cmpPath_laws.swap_eq a.2 b.2]
  · intro a b c h1 h2
    simp only [cmpEK] at h1 h2 ⊢
    cases hab : cmpKind a.1 b.1 <;> rw [hab] at h1
    · cases hbc : cmpKind b.1 c.1 <;> rw [hbc] at h2
      · rw [cmpKind_laws.lt_trans hab hbc]
      · rw [← cmpKind_laws.eq_congr_right hbc a.1, hab]
      · exact absurd h2 (by simp)
    · cases hbc : cmpKind b.1 c.1 <;> rw [hbc] at h2
      · rw [cmpKind_laws.eq_congr hab c.1, hbc]
      · rw [cmpKind_laws.eq_congr hab c.1, hbc]
        exact cmpPath_laws.lt_trans h1 h2
      · exact absurd h2 (by simp)
    · exact absurd h1 (by simp)
  · intro a b h c
    simp only [cmpEK] at h ⊢
    cases hab : cmpKind a.1 b.1 <;> rw [hab] at h
    · exact absurd h (by simp)
    · rw [cmpKind_laws.eq_congr hab c.1]
      cases cmpKind b.1 c.1
      · rfl
      · exact cmpPath_laws.eq_congr h c.2
      · rfl
    · exact absurd h (by simp)

theorem cmp_entries_eq_key (m : List (Nat × Entry)) (a b : Nat) :
    cmp_entries m a b = cmpEK (keyAt m a) (keyAt m b) := by
  simp only [cmp_entries, cmpEK, cmpKind, keyAt]
  cases ((alGet m a).getD junkEntry).kind <;> cases ((alGet m b).getD junkEntry).kind <;> rfl

theorem cmp_entries_laws (m : List (Nat × Entry)) : CmpLaws (cmp_entries m) := by
  constructor
  · intro a b
    rw [cmp_entries_eq_key, cmp_entries_eq_key]
    exact cmpEK_laws.swap_eq _ _
  · intro a b c h1 h2
    rw [cmp_entries_eq_key] at *
    exact cmpEK_laws.lt_trans h1 h2
  · intro a b h c
    rw [cmp_entries_eq_key] at *
    rw [cmp_entries_eq_key]
    exact cmpEK_laws.eq_congr h _

theorem cmp_entries_congr {m m' : List (Nat × Entry)} {a b : Nat}
    (ha : keyAt m' a = keyAt m a) (hb : keyAt m' b = keyAt m b) :
    cmp_entries m' a b = cmp_entries m a b := by
  rw [cmp_entries_eq_key, cmp_entries_eq_key, ha, hb]

/-- Transport sortedness of one list across a map change that preserves
the keys of the list's members. -/
theorem pairwise_leE_congr {m m' : List (Nat × Entry)} {l : List Nat}
    (h : ∀ x ∈ l, keyAt m' x = keyAt m x) (hp : l.Pairwise (leE m)) :
    l.Pairwise (leE m') := by
  refine hp.imp_of_mem ?_
  intro a b ha hb hab
  unfold leE at *
  rw [cmp_entries_congr (h a ha) (h b hb)]
  exact hab

theorem keyAt_modify_of_key_preserving {m : List (Nat × Entry)} {k : Nat}
    {f : Entry → Entry}
    (hf : ∀ e, (f e).kind = e.kind ∧ (f e).path = e.path) (x : Nat) :
    keyAt (alModify m k f) x = keyAt m x := by
  unfold keyAt
  rw [alGet_modify]
  by_cases hx : x = k
  · subst hx
    cases hm : alGet m x
    · simp
    · simp [(hf _).1, (hf _).2]
  · rw [if_neg hx]

theorem keyAt_modify_ne {m : List (Nat × Entry)} {k : Nat} {f : Entry → Entry}
    {x : Nat} (hx : x ≠ k) : keyAt (alModify m k f) x = keyAt m x := by
  unfold keyAt
  rw [alGet_modify, if_neg hx]

theorem keyAt_cons_ne {m : List (Nat × Entry)} {k : Nat} {e : Entry} {x : Nat}
    (hx : k ≠ x) : keyAt ((k, e) :: m) x = keyAt m x := by
  unfold keyAt
  rw [alGet_cons, if_neg hx]

theorem keyAt_remove_ne {m : List (Nat × Entry)} {k : Nat} {x : Nat}
    (hx : x ≠ k) : keyAt (alRemove m k) x = keyAt m x := by
  unfold keyAt
  rw [alGet_remove, if_neg hx]

theorem leE_refl (m : List (Nat × Entry)) (a : Nat) : leE m a a := by
  unfold leE
  rw [(cmp_entries_laws m).refl_eq a]
  simp

theorem leE_trans {m : List (Nat × Entry)} {a b c : Nat}
    (h1 : leE m a b) (h2 : leE m b c) : leE m a c :=
  (cmp_entries_laws m).le_trans_ne h1 h2

/-- `insert_sorted_child`'s binary-search insertion keeps a sorted list
sorted. -/
theorem insAt_binarySearch_pairwise {m : List (Nat × Entry)} {xs : List Nat} {child : Nat}
    (hp : xs.Pairwise (leE m)) :
    (insAt xs
      (binarySearchGo (fun cid => cmp_entries m cid child) xs xs.length 0 xs.length)
      child).Pairwise (leE m) := by
  have hgd : ∀ i, (h : i < xs.length) → xs.getD i 0 = xs[i] := by
    intro i h
    simp [List.getD_eq_getElem?_getD, List.getElem?_eq_getElem h]
  have hpg := List.pairwise_iff_getElem.mp hp
  have mono : ∀ i j, i ≤ j → j < xs.length →
      ordRank (cmp_entries m (xs.getD i 0) child) ≤
      ordRank (cmp_entries m (xs.getD j 0) child) := by
    intro i j hij hj
    have hi : i < xs.length := Nat.lt_of_le_of_lt hij hj
    rw [hgd i hi, hgd j hj]
    rcases Nat.lt_or_ge i j with hlt | hge
    · have hle : leE m xs[i] xs[j] := hpg i j hi hj hlt
      exact (cmp_entries_laws m).rank_mono hle
    · have hij' : i = j := Nat.le_antisymm hij hge
      subst hij'
      exact Nat.le_refl _
  have spec := binarySearchGo_spec (fun cid => cmp_entries m cid child) xs mono
    xs.length 0 xs.length (by omega) (Nat.le_refl _)
    (by omega) (by omega)
  refine pairwise_insAt hp ?_ ?_
  · intro i hi hlen
    have h1 := spec.1 i hi hlen
    rw [hgd i hlen] at h1
    exact h1
  · intro i hi hlen
    have h2 := spec.2 i hi hlen
    rw [hgd i hlen] at h2
    unfold leE
    intro hgt
    exact h2 ((cmp_entries_laws m).gt_iff_lt.mp hgt)

theorem alModify_of_none {m : List (Nat × α)} {k : Nat} {f : α → α}
    (h : alGet m k = none) : alModify m k f = m := by
  induction m with
  | nil => rfl
  | cons kv rest ih =>
    obtain ⟨a, v⟩ := kv
    rw [alGet_cons] at h
    by_cases hak : a = k
    · rw [if_pos hak] at h
      cases h
    · rw [if_neg hak] at h
      simp only [alModify, if_neg hak]
      rw [ih h]

/-- A modification that keeps kind, path, parent, and only shrinks the
children list (or keeps it) preserves the whole invariant. -/
theorem invm_modify_generic {m : List (Nat × Entry)} {n : Nat} {k : Nat}
    {f : Entry → Entry}
    (hkey : ∀ e, (f e).kind = e.kind ∧ (f e).path = e.path)
    (hpar : ∀ e, (f e).parent = e.parent)
    (hch : ∀ e, (f e).children.Sublist e.children)
    (h : InvM m n) : InvM (alModify m k f) n := by
  obtain ⟨hs, hc, hb, hu⟩ := h
  have hkeys : ∀ x, keyAt (alModify m k f) x = keyAt m x :=
    keyAt_modify_of_key_preserving hkey
  refine ⟨?_, ?_, ?_, ?_⟩
  · intro j e' hj
    rw [alGet_modify] at hj
    by_cases hjk : j = k
    · rw [if_pos hjk] at hj
      cases hm : alGet m k with
      | none => rw [hm] at hj; cases hj
      | some e =>
        rw [hm] at hj
        cases hj
        refine pairwise_leE_congr (fun x _ => hkeys x) ?_
        exact ((hs k e (hjk ▸ hm)).sublist (hch e))
    · rw [if_neg hjk] at hj
      exact pairwise_leE_congr (fun x _ => hkeys x) (hs j e' hj)
  · intro p ep hp c hcmem
    rw [alGet_modify] at hp
    have hget : ∀ c₀ ec, alGet m c₀ = some ec →
        ∃ ec', alGet (alModify m k f) c₀ = some ec' ∧ ec'.parent = ec.parent := by
      intro c₀ ec hec
      rw [alGet_modify]
      by_cases hc₀ : c₀ = k
      · subst hc₀
        rw [if_pos rfl, hec]
        exact ⟨f ec, rfl, hpar ec⟩
      · rw [if_neg hc₀]
        exact ⟨ec, hec, rfl⟩
    by_cases hpk : p = k
    · rw [if_pos hpk] at hp
      cases hm : alGet m k with
      | none => rw [hm] at hp; cases hp
      | some e =>
        rw [hm] at hp
        cases hp
        have hcmem' : c ∈ e.children := (hch e).mem hcmem
        obtain ⟨ec, hec, hecp⟩ := hc p e (hpk ▸ hm) c hcmem'
        obtain ⟨ec', hec', hecp'⟩ := hget c ec hec
        exact ⟨ec', hec', hecp' ▸ hecp⟩
    · rw [if_neg hpk] at hp
      obtain ⟨ec, hec, hecp⟩ := hc p ep hp c hcmem
      obtain ⟨ec', hec', hecp'⟩ := hget c ec hec
      exact ⟨ec', hec', hecp' ▸ hecp⟩
  · intro j e' hj
    rw [alGet_modify] at hj
    by_cases hjk : j = k
    · rw [if_pos hjk] at hj
      cases hm : alGet m k with
      | none => rw [hm] at hj; cases hj
      | some e =>
        rw [hm] at hj
        cases hj
        obtain ⟨hk1, hk2⟩ := hb k e (hjk ▸ hm)
        exact ⟨hjk ▸ hk1, fun c hcmem => hk2 c ((hch e).mem hcmem)⟩
    · rw [if_neg hjk] at hj
      exact hb j e' hj
  · intro j e' hj c hcmem
    rw [alGet_modify] at hj
    by_cases hjk : j = k
    · rw [if_pos hjk] at hj
      cases hm : alGet m k with
      | none => rw [hm] at hj; cases hj
      | some e =>
        rw [hm] at hj
        cases hj
        exact hjk ▸ hu k e (hjk ▸ hm) c ((hch e).mem hcmem)
    · rw [if_neg hjk] at hj
      exact hu j e' hj c hcmem

/-- Like `invm_modify_generic` but for a children transform that keeps
membership within the old list and yields a sorted list (used for
`sort_children`). -/
theorem invm_modify_children {m : List (Nat × Entry)} {n : Nat} {k : Nat}
    {f : Entry → Entry}
    (hkey : ∀ e, (f e).kind = e.kind ∧ (f e).path = e.path)
    (hpar : ∀ e, (f e).parent = e.parent)
    (hmem : ∀ e c, c ∈ (f e).children → c ∈ e.children)
    (hsorted : ∀ e, alGet m k = some e → (f e).children.Pairwise (leE m))
    (h : InvM m n) : InvM (alModify m k f) n := by
  obtain ⟨hs, hc, hb, hu⟩ := h
  have hkeys : ∀ x, keyAt (alModify m k f) x = keyAt m x :=
    keyAt_modify_of_key_preserving hkey
  refine ⟨?_, ?_, ?_, ?_⟩
  · intro j e' hj
    rw [alGet_modify] at hj
    by_cases hjk : j = k
    · rw [if_pos hjk] at hj
      cases hm : alGet m k with
      | none => rw [hm] at hj; cases hj
      | some e =>
        rw [hm] at hj
        cases hj
        exact pairwise_leE_congr (fun x _ => hkeys x) (hsorted e hm)
    · rw [if_neg hjk] at hj
      exact pairwise_leE_congr (fun x _ => hkeys x) (hs j e' hj)
  · intro p ep hp c hcmem
    rw [alGet_modify] at hp
    have hget : ∀ c₀ ec, alGet m c₀ = some ec →
        ∃ ec', alGet (alModify m k f) c₀ = some ec' ∧ ec'.parent = ec.parent := by
      intro c₀ ec hec
      rw [alGet_modify]
      by_cases hc₀ : c₀ = k
      · subst hc₀
        rw [if_pos rfl, hec]
        exact ⟨f ec, rfl, hpar ec⟩
      · rw [if_neg hc₀]
        exact ⟨ec, hec, rfl⟩
    by_cases hpk : p = k
    · rw [if_pos hpk] at hp
      cases hm : alGet m k with
      | none => rw [hm] at hp; cases hp
      | some e =>
        rw [hm] at hp
        cases hp
        obtain ⟨ec, hec, hecp⟩ := hc p e (hpk ▸ hm) c (hmem e c hcmem)
        obtain ⟨ec', hec', hecp'⟩ := hget c ec hec
        exact ⟨ec', hec', hecp' ▸ hecp⟩
    · rw [if_neg hpk] at hp
      obtain ⟨ec, hec, hecp⟩ := hc p ep hp c hcmem
      obtain ⟨ec', hec', hecp'⟩ := hget c ec hec
      exact ⟨ec', hec', hecp' ▸ hecp⟩
  · intro j e' hj
    rw [alGet_modify] at hj
    by_cases hjk : j = k
    · rw [if_pos hjk] at hj
      cases hm : alGet m k with
      | none => rw [hm] at hj; cases hj
      | some e =>
        rw [hm] at hj
        cases hj
        obtain ⟨hk1, hk2⟩ := hb k e (hjk ▸ hm)
        exact ⟨hjk ▸ hk1, fun c hcmem => hk2 c (hmem e c hcmem)⟩
    · rw [if_neg hjk] at hj
      exact hb j e' hj
  · intro j e' hj c hcmem
    rw [alGet_modify] at hj
    by_cases hjk : j = k
    · rw [if_pos hjk] at hj
      cases hm : alGet m k with
      | none => rw [hm] at hj; cases hj
      | some e =>
        rw [hm] at hj
        cases hj
        exact hjk ▸ hu k e (hjk ▸ hm) c (hmem e c hcmem)
    · rw [if_neg hjk] at hj
      exact hu j e' hj c hcmem

theorem inv_sort_children {t : FileTree} (p : Nat) (h : Inv t) :
    Inv (t.sort_children p) := by
  have htot : ∀ x y,
      ((match cmp_entries t.entries x y with | .gt => false | _ => true) ||
       (match cmp_entries t.entries y x with | .gt => false | _ => true)) = true := by
    intro x y
    rcases (cmp_entries_laws t.entries).le_total_ne x y with hxy | hyx
    · cases hc : cmp_entries t.entries x y
      · simp
      · simp
      · exact absurd hc hxy
    · cases hc : cmp_entries t.entries y x
      · simp
      · simp
      · exact absurd hc hyx
  have htr : ∀ x y z,
      (match cmp_entries t.entries x y with | .gt => false | _ => true) = true →
      (match cmp_entries t.entries y z with | .gt => false | _ => true) = true →
      (match cmp_entries t.entries x z with | .gt => false | _ => true) = true := by
    intro x y z h1 h2
    have l1 : leE t.entries x y := by
      unfold leE
      intro hgt
      rw [hgt] at h1
      cases h1
    have l2 : leE t.entries y z := by
      unfold leE
      intro hgt
      rw [hgt] at h2
      cases h2
    have l3 := leE_trans l1 l2
    unfold leE at l3
    cases hc : cmp_entries t.entries x z
    · rfl
    · rfl
    · exact absurd hc l3
  refine invm_modify_children ?_ ?_ ?_ ?_ h
  · intro e
    exact ⟨rfl, rfl⟩
  · intro e
    rfl
  · intro e c hcmem
    exact mem_sortStable.mp hcmem
  · intro e _
    have hpw : (sortStable (fun a b => match cmp_entries t.entries a b with | .gt => false | _ => true) e.children).Pairwise
        (fun x y => (match cmp_entries t.entries x y with | .gt => false | _ => true) = true) :=
      pairwise_sortStable (fun x y => htot x y) htr
    refine hpw.imp ?_
    intro a b hab
    unfold leE
    intro hgt
    simp only [hgt] at hab
    cases hab

/-- Prepending a fresh entry (children empty, parent an existing key)
preserves the invariant and bumps the bound. -/
theorem invm_cons_fresh {m : List (Nat × Entry)} {n : Nat} {p : Nat} {pth : Path}
    {kd : EntryKind} (h : InvM m n) :
    InvM ((n, { path := pth, kind := kd, parent := some p, children := [],
                expanded := false, visited := false, marked := false }) :: m) (n + 1) := by
  obtain ⟨hs, hc, hb, hu⟩ := h
  have hgetc : ∀ x, x ≠ n →
      alGet ((n, { path := pth, kind := kd, parent := some p, children := [],
                   expanded := false, visited := false, marked := false }) :: m) x =
      alGet m x := by
    intro x hx
    rw [alGet_cons, if_neg (fun hh : n = x => hx hh.symm)]
  refine ⟨?_, ?_, ?_, ?_⟩
  · intro j e' hj
    by_cases hjn : j = n
    · subst hjn
      rw [alGet_cons, if_pos rfl] at hj
      cases hj
      exact List.Pairwise.nil
    · rw [hgetc j hjn] at hj
      refine pairwise_leE_congr ?_ (hs j e' hj)
      intro x hx
      have hxn : x < n := (hb j e' hj).2 x hx
      exact keyAt_cons_ne (fun hh => Nat.lt_irrefl n (hh ▸ hxn))
  · intro q eq' hq c hcmem
    by_cases hqn : q = n
    · subst hqn
      rw [alGet_cons, if_pos rfl] at hq
      cases hq
      cases hcmem
    · rw [hgetc q hqn] at hq
      obtain ⟨ec, hec, hecp⟩ := hc q eq' hq c hcmem
      have hcn : c < n := (hb q eq' hq).2 c hcmem
      refine ⟨ec, ?_, hecp⟩
      rw [hgetc c (fun hh => Nat.lt_irrefl n (hh ▸ hcn))]
      exact hec
  · intro j e' hj
    by_cases hjn : j = n
    · subst hjn
      rw [alGet_cons, if_pos rfl] at hj
      cases hj
      exact ⟨Nat.lt_succ_self _, fun c hcmem => by cases hcmem⟩
    · rw [hgetc j hjn] at hj
      obtain ⟨h1, h2⟩ := hb j e' hj
      exact ⟨Nat.lt_succ_of_lt h1, fun c hcmem => Nat.lt_succ_of_lt (h2 c hcmem)⟩
  · intro j e' hj c hcmem
    by_cases hjn : j = n
    · subst hjn
      rw [alGet_cons, if_pos rfl] at hj
      cases hj
      cases hcmem
    · rw [hgetc j hjn] at hj
      exact hu j e' hj c hcmem

/-- `insert_sorted_child` preserves the invariant when the child is a key
whose entry points back to the parent and whose id is above the parent. -/
theorem inv_insert_sorted_child {t : FileTree} {par child : Nat} {ce : Entry}
    (h : Inv t)
    (hchild : alGet t.entries child = some ce)
    (hcp : ce.parent = some par)
    (hpc : par < child) :
    Inv (t.insert_sorted_child par child) := by
  obtain ⟨hs, hc, hb, hu⟩ := h
  cases hpe : alGet t.entries par with
  | none =>
    have heq : (t.insert_sorted_child par child).entries = t.entries := by
      unfold FileTree.insert_sorted_child modifyEntry
      rw [alModify_of_none hpe]
    have hnext : (t.insert_sorted_child par child).nextId = t.nextId := rfl
    unfold Inv InvM
    rw [heq, hnext]
    exact ⟨hs, hc, hb, hu⟩
  | some pe =>
    have hpw : pe.children.Pairwise (leE t.entries) := hs par pe hpe
    have hpos : sortedInsertPos t.entries par child =
        binarySearchGo (fun cid => cmp_entries t.entries cid child)
          pe.children pe.children.length 0 pe.children.length := by
      unfold sortedInsertPos
      rw [hpe]
      exact rfl
    have hins : (insAt pe.children (sortedInsertPos t.entries par child) child).Pairwise
        (leE t.entries) := by
      rw [hpos]
      exact insAt_binarySearch_pairwise hpw
    have hentries : (t.insert_sorted_child par child).entries =
        alModify t.entries par (fun e => { e with children := insAt e.children (sortedInsertPos t.entries par child) child }) := rfl
    have hkeys : ∀ x, keyAt (alModify t.entries par (fun e => { e with children := insAt e.children (sortedInsertPos t.entries par child) child })) x =
        keyAt t.entries x := by
      intro x
      exact keyAt_modify_of_key_preserving
        (f := fun e => { e with children := insAt e.children (sortedInsertPos t.entries par child) child })
        (fun e => ⟨rfl, rfl⟩) x
    have hnext : (t.insert_sorted_child par child).nextId = t.nextId := rfl
    unfold Inv InvM
    rw [hentries, hnext]
    have hmemIns : ∀ c, c ∈ insAt pe.children (sortedInsertPos t.entries par child) child →
        c = child ∨ c ∈ pe.children := by
      intro c hcmem
      exact mem_insAt.mp hcmem
    refine ⟨?_, ?_, ?_, ?_⟩
    · intro j e' hj
      rw [alGet_modify] at hj
      by_cases hjp : j = par
      · rw [if_pos hjp, hpe] at hj
        cases hj
        refine pairwise_leE_congr ?_ hins
        intro x _
        exact hkeys x
      · rw [if_neg hjp] at hj
        refine pairwise_leE_congr ?_ (hs j e' hj)
        intro x _
        exact hkeys x
    · intro q eq' hq c hcmem
      have hget : ∀ c₀ ec, alGet t.entries c₀ = some ec →
          ∃ ec', alGet (alModify t.entries par (fun e => { e with children := insAt e.children (sortedInsertPos t.entries par child) child })) c₀ =
            some ec' ∧ ec'.parent = ec.parent := by
        intro c₀ ec hec
        rw [alGet_modify]
        by_cases hc₀ : c₀ = par
        · subst hc₀
          rw [if_pos rfl, hec]
          exact ⟨_, rfl, rfl⟩
        · rw [if_neg hc₀]
          exact ⟨ec, hec, rfl⟩
      rw [alGet_modify] at hq
      by_cases hqp : q = par
      · rw [if_pos hqp, hpe] at hq
        cases hq
        rcases hmemIns c hcmem with rfl | hold
        · obtain ⟨ec', hec', hecp'⟩ := hget c ce hchild
          exact ⟨ec', hec', by rw [hecp', hcp, hqp]⟩
        · obtain ⟨ec, hec, hecp⟩ := hc q pe (hqp ▸ hpe) c hold
          obtain ⟨ec', hec', hecp'⟩ := hget c ec hec
          exact ⟨ec', hec', hecp' ▸ hecp⟩
      · rw [if_neg hqp] at hq
        obtain ⟨ec, hec, hecp⟩ := hc q eq' hq c hcmem
        obtain ⟨ec', hec', hecp'⟩ := hget c ec hec
        exact ⟨ec', hec', hecp' ▸ hecp⟩
    · intro j e' hj
      rw [alGet_modify] at hj
      by_cases hjp : j = par
      · rw [if_pos hjp, hpe] at hj
        cases hj
        refine ⟨hjp ▸ (hb par pe hpe).1, ?_⟩
        intro c hcmem
        rcases hmemIns c hcmem with rfl | hold
        · exact (hb c ce hchild).1
        · exact (hb par pe hpe).2 c hold
      · rw [if_neg hjp] at hj
        exact hb j e' hj
    · intro j e' hj c hcmem
      rw [alGet_modify] at hj
      by_cases hjp : j = par
      · rw [if_pos hjp, hpe] at hj
        cases hj
        rcases hmemIns c hcmem with rfl | hold
        · exact hjp ▸ hpc
        · exact hjp ▸ hu par pe hpe c hold
      · rw [if_neg hjp] at hj
        exact hu j e' hj c hcmem

theorem alRemove_of_none {m : List (Nat × α)} {k : Nat}
    (h : alGet m k = none) : alRemove m k = m := by
  induction m with
  | nil => rfl
  | cons kv rest ih =>
    obtain ⟨a, v⟩ := kv
    rw [alGet_cons] at h
    by_cases hak : a = k
    · rw [if_pos hak] at h
      cases h
    · rw [if_neg hak] at h
      simp only [alRemove, if_neg hak]
      rw [ih h]

theorem delete_recursive_succ (fuel : Nat) (t : FileTree) (id : Nat) :
    delete_recursive (fuel + 1) t id =
      { deleteRecFold fuel t ((alGet t.entries id).getD junkEntry).children with entries := alRemove (deleteRecFold fuel t ((alGet t.entries id).getD junkEntry).children).entries id } := rfl

theorem delete_recursive_only_entries :
    ∀ (fuel : Nat) (t : FileTree) (id : Nat),
    ∃ m, delete_recursive fuel t id = { t with entries := m } := by
  intro fuel
  induction fuel with
  | zero =>
    intro t id
    exact ⟨t.entries, rfl⟩
  | succ fuel ih =>
    intro t id
    have haux : ∀ (cs : List Nat) (s : FileTree) (m₀ : List (Nat × Entry)),
        s = { t with entries := m₀ } →
        ∃ m, deleteRecFold fuel s cs = { t with entries := m } := by
      intro cs
      induction cs with
      | nil =>
        intro s m₀ hs
        exact ⟨m₀, hs⟩
      | cons c rest ihcs =>
        intro s m₀ hs
        obtain ⟨m₁, hm₁⟩ := ih s c
        have : delete_recursive fuel s c = { t with entries := m₁ } := by
          rw [hm₁, hs]
        exact ihcs (delete_recursive fuel s c) m₁ this
    obtain ⟨m, hm⟩ := haux ((alGet t.entries id).getD junkEntry).children t t.entries rfl
    refine ⟨alRemove m id, ?_⟩
    rw [delete_recursive_succ, hm]

/-- The heart of the deletion argument: removing the subtree below `id`
preserves sortedness and coherence outside the (transiently broken)
exception set `B`, only ever removes entries, and never changes an
entry's stored value. -/
theorem delete_recursive_spec (fuel : Nat) :
    ∀ (t : FileTree) (id : Nat) (B : Nat → Prop),
    (∀ b, B b → b < id) →
    SortedListsExc B t.entries →
    CoherentExc B t.entries →
    (∀ k e, ¬ B k → alGet t.entries k = some e → ¬ id ∈ e.children) →
    ChildUp t.entries →
    SortedListsExc B (delete_recursive fuel t id).entries ∧
    CoherentExc B (delete_recursive fuel t id).entries ∧
    ChildUp (delete_recursive fuel t id).entries ∧
    (∀ k e, alGet (delete_recursive fuel t id).entries k = some e →
      alGet t.entries k = some e) := by
  induction fuel with
  | zero =>
    intro t id B hBlt hs hc hdet hu
    exact ⟨hs, hc, hu, fun k e h => h⟩
  | succ fuel ih =>
    intro t id B hBlt hs hc hdet hu
    have hBid : ¬ B id := fun hb => Nat.lt_irrefl id (hBlt id hb)
    cases hid : alGet t.entries id with
    | none =>
      have hres : delete_recursive (fuel + 1) t id = { t with entries := t.entries } := by
        rw [delete_recursive_succ, hid]
        have h1 : (junkEntry : Entry).children = [] := rfl
        simp only [Option.getD_none, h1]
        have h2 : deleteRecFold fuel t [] = t := rfl
        rw [h2, alRemove_of_none hid]
      rw [hres]
      exact ⟨hs, hc, hu, fun k e h => h⟩
    | some eid =>
      have hchild_facts : ∀ c ∈ eid.children, id < c ∧
          (∀ k e, ¬ B k → k ≠ id → alGet t.entries k = some e → ¬ c ∈ e.children) := by
        intro c hcmem
        refine ⟨hu id eid hid c hcmem, ?_⟩
        intro k e hBk hkid hke hcin
        obtain ⟨ec, hec, hecp⟩ := hc k e hBk hke c hcin
        obtain ⟨ec', hec', hecp'⟩ := hc id eid hBid hid c hcmem
        rw [hec] at hec'
        cases hec'
        exact hkid (Option.some.inj (hecp.symm.trans hecp'))
      have fold_spec : ∀ (cs : List Nat),
          (∀ c ∈ cs, id < c ∧
            (∀ k e, ¬ B k → k ≠ id → alGet t.entries k = some e → ¬ c ∈ e.children)) →
          ∀ (s : FileTree),
          SortedListsExc (fun b => B b ∨ b = id) s.entries →
          CoherentExc (fun b => B b ∨ b = id) s.entries →
          ChildUp s.entries →
          (∀ k e, alGet s.entries k = some e → alGet t.entries k = some e) →
          SortedListsExc (fun b => B b ∨ b = id) (deleteRecFold fuel s cs).entries ∧
          CoherentExc (fun b => B b ∨ b = id) (deleteRecFold fuel s cs).entries ∧
          ChildUp (deleteRecFold fuel s cs).entries ∧
          (∀ k e, alGet (deleteRecFold fuel s cs).entries k = some e →
            alGet t.entries k = some e) := by
        intro cs
        induction cs with
        | nil =>
          intro _ s hs' hc' hu' hpres
          exact ⟨hs', hc', hu', hpres⟩
        | cons c rest ihcs =>
          intro hfacts s hs' hc' hu' hpres
          obtain ⟨hidc, hconly⟩ := hfacts c (List.mem_cons_self c rest)
          have hBlt' : ∀ b, (B b ∨ b = id) → b < c := by
            intro b hb
            rcases hb with hb | rfl
            · exact Nat.lt_trans (hBlt b hb) hidc
            · exact hidc
          have hdet' : ∀ k e, ¬ (B k ∨ k = id) → alGet s.entries k = some e →
              ¬ c ∈ e.children := by
            intro k e hk hke
            push_neg at hk
            exact hconly k e hk.1 hk.2 (hpres k e hke)
          have hstep := ih s c (fun b => B b ∨ b = id) hBlt' hs' hc' hdet' hu'
          have hfold : deleteRecFold fuel s (c :: rest) =
              deleteRecFold fuel (delete_recursive fuel s c) rest := rfl
          rw [hfold]
          refine ihcs (fun c' hc'mem => hfacts c' (List.mem_cons_of_mem c hc'mem))
            (delete_recursive fuel s c) hstep.1 hstep.2.1 hstep.2.2.1 ?_
          intro k e hke
          exact hpres k e (hstep.2.2.2 k e hke)
      have hsX : SortedListsExc (fun b => B b ∨ b = id) t.entries :=
        fun k e hk hke => hs k e (fun hb => hk (Or.inl hb)) hke
      have hcX : CoherentExc (fun b => B b ∨ b = id) t.entries :=
        fun p ep hp hpe => hc p ep (fun hb => hp (Or.inl hb)) hpe
      have hfold := fold_spec eid.children hchild_facts t hsX hcX hu (fun k e h => h)
      have hres : delete_recursive (fuel + 1) t id =
          { deleteRecFold fuel t eid.children with entries := alRemove (deleteRecFold fuel t eid.children).entries id } := by
        rw [delete_recursive_succ, hid]
        simp only [Option.getD_some]
      rw [hres]
      obtain ⟨hfs, hfc, hfu, hfp⟩ := hfold
      refine ⟨?_, ?_, ?_, ?_⟩
      · intro k e hk hke
        simp only [alGet_remove] at hke
        by_cases hkid : k = id
        · rw [if_pos hkid] at hke
          cases hke
        · rw [if_neg hkid] at hke
          have hkt : alGet t.entries k = some e := hfp k e hke
          have hnotin : ¬ id ∈ e.children := hdet k e hk hkt
          have hpw := hfs k e (fun hb => (by rcases hb with hb | rfl
                                             · exact hk hb
                                             · exact hkid rfl)) hke
          refine pairwise_leE_congr ?_ hpw
          intro x hx
          refine keyAt_remove_ne ?_
          intro hxid
          subst hxid
          exact hnotin hx
      · intro p ep hp hpe c hcmem
        simp only [alGet_remove] at hpe
        by_cases hpid : p = id
        · rw [if_pos hpid] at hpe
          cases hpe
        · rw [if_neg hpid] at hpe
          have hpt : alGet t.entries p = some ep := hfp p ep hpe
          have hnotin : ¬ id ∈ ep.children := hdet p ep hp hpt
          obtain ⟨ec, hec, hecp⟩ := hfc p ep (fun hb => (by rcases hb with hb | rfl
                                                            · exact hp hb
                                                            · exact hpid rfl)) hpe c hcmem
          refine ⟨ec, ?_, hecp⟩
          have hcne : ¬ c = id := by
            intro hcid
            subst hcid
            exact hnotin hcmem
          rw [alGet_remove, if_neg hcne]
          exact hec
      · intro k e hke c hcmem
        simp only [alGet_remove] at hke
        by_cases hkid : k = id
        · rw [if_pos hkid] at hke
          cases hke
        · rw [if_neg hkid] at hke
          exact hfu k e hke c hcmem
      · intro k e hke
        simp only [alGet_remove] at hke
        by_cases hkid : k = id
        · rw [if_pos hkid] at hke
          cases hke
        · rw [if_neg hkid] at hke
          exact hfp k e hke

/-- `add` preserves the invariant. -/
theorem inv_add {t : FileTree} (h : Inv t) (p : Nat) (pth : Path) (kd : EntryKind) :
    Inv (t.add p pth kd).1 := by
  by_cases hp : (alGet t.entries p).isSome
  · have hres : (t.add p pth kd).1 =
        FileTree.insert_sorted_child { t with entries := (t.nextId, { path := pth, kind := kd, parent := some p, children := [], expanded := false, visited := false, marked := false }) :: t.entries, nextId := t.nextId + 1 } p t.nextId := by
      unfold FileTree.add
      rw [if_pos hp]
    rw [hres]
    have h1 : Inv ({ t with entries := (t.nextId, { path := pth, kind := kd, parent := some p, children := [], expanded := false, visited := false, marked := false }) :: t.entries, nextId := t.nextId + 1 } : FileTree) :=
      invm_cons_fresh h
    refine @inv_insert_sorted_child _ p t.nextId ⟨pth, kd, some p, [], false, false, false⟩ h1 ?_ rfl ?_
    · simp [alGet_cons]
    · obtain ⟨pe, hpe⟩ := Option.isSome_iff_exists.mp hp
      exact (h.2.2.1 p pe hpe).1
  · have hres : (t.add p pth kd).1 = t := by
      unfold FileTree.add
      rw [if_neg hp]
    rw [hres]
    exact h

theorem keys_alModify (m : List (Nat × α)) (k : Nat) (f : α → α) :
    (alModify m k f).map Prod.fst = m.map Prod.fst := by
  induction m with
  | nil => rfl
  | cons kv rest ih =>
    obtain ⟨a, v⟩ := kv
    by_cases hak : a = k
    · simp only [alModify, if_pos hak, List.map_cons]
    · simp only [alModify, if_neg hak, List.map_cons, ih]

theorem keys_alRemove (m : List (Nat × α)) (k : Nat) :
    ((alRemove m k).map Prod.fst).Sublist (m.map Prod.fst) := by
  induction m with
  | nil => exact List.Sublist.refl _
  | cons kv rest ih =>
    obtain ⟨a, v⟩ := kv
    by_cases hak : a = k
    · simp only [alRemove, if_pos hak, List.map_cons]
      exact ih.cons a
    · simp only [alRemove, if_neg hak, List.map_cons]
      exact ih.cons₂ a

theorem alGet_isSome_of_mem_keys {m : List (Nat × α)} {k : Nat}
    (h : k ∈ m.map Prod.fst) : (alGet m k).isSome = true := by
  induction m with
  | nil => cases h
  | cons kv rest ih =>
    obtain ⟨a, v⟩ := kv
    simp only [List.map_cons, List.mem_cons] at h
    rw [alGet_cons]
    by_cases hak : a = k
    · rw [if_pos hak]
      rfl
    · rw [if_neg hak]
      exact ih (h.resolve_left (fun hh => hak hh.symm))

theorem alGet_of_mem_nodup {m : List (Nat × α)} {k : Nat} {v : α}
    (hnd : (m.map Prod.fst).Nodup) (h : (k, v) ∈ m) : alGet m k = some v := by
  induction m with
  | nil => cases h
  | cons kv rest ih =>
    obtain ⟨a, w⟩ := kv
    simp only [List.map_cons, List.nodup_cons] at hnd
    rcases List.mem_cons.mp h with heq | hmem
    · cases heq
      rw [alGet_cons, if_pos rfl]
    · rw [alGet_cons]
      by_cases hak : a = k
      · subst hak
        exact absurd (List.mem_map_of_mem Prod.fst hmem) hnd.1
      · rw [if_neg hak]
        exact ih hnd.2 hmem

theorem alFindByPath_mem {m : List (Nat × Entry)} {p : Path} {id : Nat} {e : Entry}
    (h : alFindByPath m p = some (id, e)) : (id, e) ∈ m :=
  List.mem_of_find?_eq_some h

theorem keysNodup_modify {m : List (Nat × Entry)} {k : Nat} {f : Entry → Entry}
    (h : KeysNodup m) : KeysNodup (alModify m k f) := by
  unfold KeysNodup
  rw [keys_alModify]
  exact h

theorem keysNodup_cons_fresh {m : List (Nat × Entry)} {n : Nat} {e : Entry}
    (hb : Bounded m n) (h : KeysNodup m) : KeysNodup ((n, e) :: m) := by
  unfold KeysNodup
  simp only [List.map_cons, List.nodup_cons]
  refine ⟨?_, h⟩
  intro hmem
  have hsome := alGet_isSome_of_mem_keys hmem
  obtain ⟨v, hv⟩ := Option.isSome_iff_exists.mp hsome
  exact Nat.lt_irrefl n (hb n v hv).1

theorem keysNodup_remove {m : List (Nat × Entry)} {k : Nat}
    (h : KeysNodup m) : KeysNodup (alRemove m k) :=
  List.Nodup.sublist (keys_alRemove m k) h

/-- `InvT` only looks at the arena and the fresh-id counter. -/
theorem invt_of_entries_eq {t t' : FileTree}
    (he : t'.entries = t.entries) (hn : t'.nextId = t.nextId)
    (h : InvT t) : InvT t' := by
  obtain ⟨h1, h2⟩ := h
  unfold InvT Inv KeysNodup at *
  rw [he, hn]
  exact ⟨h1, h2⟩

theorem invt_modify_generic {t : FileTree} {k : Nat} {f : Entry → Entry}
    (hkey : ∀ e, (f e).kind = e.kind ∧ (f e).path = e.path)
    (hpar : ∀ e, (f e).parent = e.parent)
    (hch : ∀ e, (f e).children.Sublist e.children)
    (h : InvT t) : InvT (modifyEntry t k f) :=
  ⟨invm_modify_generic hkey hpar hch h.1, keysNodup_modify h.2⟩

theorem invt_add {t : FileTree} (h : InvT t) (p : Nat) (pth : Path) (kd : EntryKind) :
    InvT (t.add p pth kd).1 := by
  refine ⟨inv_add h.1 p pth kd, ?_⟩
  unfold FileTree.add
  by_cases hp : (alGet t.entries p).isSome
  · rw [if_pos hp]
    exact keysNodup_modify (keysNodup_cons_fresh h.1.2.2.1 h.2)
  · rw [if_neg hp]
    exact h.2

theorem invt_foldl_add {p : Nat} :
    ∀ (l : List (Path × EntryKind)) (s : FileTree), InvT s →
    InvT (l.foldl (fun acc pk => (acc.add p pk.1 pk.2).1) s) := by
  intro l
  induction l with
  | nil =>
    intro s hs
    exact hs
  | cons x xs ih =>
    intro s hs
    exact ih _ (invt_add hs p x.1 x.2)

theorem invt_enter {t : FileTree} (fs : Fs) (h : InvT t) : InvT (t.enter fs) := by
  cases hsel : alGet t.entries t.selected with
  | none =>
    have hres : t.enter fs = t := by
      simp only [FileTree.enter, hsel]
    rw [hres]
    exact h
  | some entry =>
    cases hk : entry.kind with
    | Folder =>
      have h1 : InvT (modifyEntry t t.selected fun e => { e with expanded := !e.expanded }) :=
        invt_modify_generic (fun e => ⟨rfl, rfl⟩) (fun e => rfl)
          (fun e => List.Sublist.refl _) h
      cases hv : entry.visited with
      | true =>
        have hres : t.enter fs = { modifyEntry t t.selected (fun e => { e with expanded := !e.expanded }) with visible := (modifyEntry t t.selected fun e => { e with expanded := !e.expanded }).visible_entries } := by
          simp [FileTree.enter, hsel, hk, hv]
        rw [hres]
        exact invt_of_entries_eq rfl rfl h1
      | false =>
        have h2 : InvT (modifyEntry (modifyEntry t t.selected fun e => { e with expanded := !e.expanded }) t.selected fun e => { e with visited := true }) :=
          invt_modify_generic (fun e => ⟨rfl, rfl⟩) (fun e => rfl)
            (fun e => List.Sublist.refl _) h1
        have h3 := @invt_foldl_add t.selected (fs.listing entry.path) _ h2
        have hres : t.enter fs = { (fs.listing entry.path).foldl (fun acc pk => (acc.add t.selected pk.1 pk.2).1) (modifyEntry (modifyEntry t t.selected fun e => { e with expanded := !e.expanded }) t.selected fun e => { e with visited := true }) with visible := ((fs.listing entry.path).foldl (fun acc pk => (acc.add t.selected pk.1 pk.2).1) (modifyEntry (modifyEntry t t.selected fun e => { e with expanded := !e.expanded }) t.selected fun e => { e with visited := true })).visible_entries } := by
          simp [FileTree.enter, hsel, hk, hv]
        rw [hres]
        exact invt_of_entries_eq rfl rfl h3
    | File =>
      cases hpe : pathExtension entry.path with
      | none =>
        have hres : t.enter fs = t := by
          simp only [FileTree.enter, hsel, hk, hpe]
        rw [hres]
        exact h
      | some ext =>
        by_cases hin : ext ∈ FILE_EXTENSIONS
        · by_cases hcc : entry.path ∈ t.cache
          · have hres : t.enter fs = { t with cache := t.cache.filter (fun p => decide (p ≠ entry.path)) } := by
              simp only [FileTree.enter, hsel, hk, hpe, if_pos hin, if_pos hcc]
            rw [hres]
            exact invt_of_entries_eq rfl rfl h
          · have hres : t.enter fs = { t with cache := entry.path :: t.cache } := by
              simp only [FileTree.enter, hsel, hk, hpe, if_pos hin, if_neg hcc]
            rw [hres]
            exact invt_of_entries_eq rfl rfl h
        · have hres : t.enter fs = t := by
            simp only [FileTree.enter, hsel, hk, hpe, if_neg hin]
          rw [hres]
          exact h

theorem invt_reset_visible {t : FileTree} (fs : Fs) (id : Nat) (h : InvT t) :
    InvT (t.reset_visible fs id) := by
  have h1 : InvT ({ t with selected := id }) := invt_of_entries_eq rfl rfl h
  have h2 := invt_enter fs h1
  have h3 : InvT (modifyEntry ({ t with selected := id }.enter fs) id fun e => { e with visited := false, children := [] }) :=
    invt_modify_generic (fun e => ⟨rfl, rfl⟩) (fun e => rfl)
      (fun e => List.nil_sublist _) h2
  exact invt_enter fs h3

theorem keys_delete_recursive :
    ∀ (fuel : Nat) (t : FileTree) (id : Nat),
    (((delete_recursive fuel t id).entries.map Prod.fst)).Sublist
      (t.entries.map Prod.fst) := by
  intro fuel
  induction fuel with
  | zero =>
    intro t id
    exact List.Sublist.refl _
  | succ fuel ih =>
    intro t id
    have haux : ∀ (cs : List Nat) (s : FileTree),
        ((deleteRecFold fuel s cs).entries.map Prod.fst).Sublist
          (s.entries.map Prod.fst) := by
      intro cs
      induction cs with
      | nil =>
        intro s
        exact List.Sublist.refl _
      | cons c rest ihcs =>
        intro s
        have h1 := ihcs (delete_recursive fuel s c)
        have h2 := ih s c
        exact h1.trans h2
    rw [delete_recursive_succ]
    exact (keys_alRemove _ id).trans (haux _ t)

/-- Deleting a subtree whose root occurs in no children list preserves
the invariant. -/
theorem invt_delete_rec {t1 : FileTree} {id : Nat} (fuel : Nat)
    (h1 : InvT t1)
    (hdet : ∀ k e, alGet t1.entries k = some e → ¬ id ∈ e.children) :
    InvT (delete_recursive fuel t1 id) := by
  obtain ⟨⟨hs1, hc1, hb1, hu1⟩, hnd1⟩ := h1
  have hspec := delete_recursive_spec fuel t1 id (fun _ => False)
    (fun b hb => hb.elim)
    (fun k e _ hk => hs1 k e hk)
    (fun p ep _ hpe => hc1 p ep hpe)
    (fun k e _ hke => hdet k e hke)
    hu1
  obtain ⟨hsD, hcD, huD, hpD⟩ := hspec
  have hnx : (delete_recursive fuel t1 id).nextId = t1.nextId := by
    obtain ⟨m, hm⟩ := delete_recursive_only_entries fuel t1 id
    rw [hm]
  refine ⟨⟨?_, ?_, ?_, ?_⟩, ?_⟩
  · intro k e hk
    exact hsD k e (fun hf => hf) hk
  · intro p ep hp
    exact hcD p ep (fun hf => hf) hp
  · intro k e hk
    rw [hnx]
    exact hb1 k e (hpD k e hk)
  · exact huD
  · exact List.Nodup.sublist (keys_delete_recursive fuel t1 id) hnd1

/-- Detach-then-delete (the common pattern of `delete`, `batch_delete`
and the remove branch of `handle_notify`) preserves the invariant. -/
theorem invt_detach_delete {t : FileTree} {id parentId : Nat} {entry : Entry}
    (h : InvT t) (hid : alGet t.entries id = some entry)
    (hpar : entry.parent = some parentId) (fuel : Nat) :
    InvT (delete_recursive fuel (modifyEntry t parentId fun pe => { pe with children := pe.children.filter (fun cid => decide (cid ≠ id)) }) id) := by
  have h1 : InvT (modifyEntry t parentId fun pe => { pe with children := pe.children.filter (fun cid => decide (cid ≠ id)) }) :=
    invt_modify_generic (fun e => ⟨rfl, rfl⟩) (fun e => rfl)
      (fun e => List.filter_sublist _) h
  refine invt_delete_rec fuel h1 ?_
  intro k e hke hin
  have hke' : alGet (alModify t.entries parentId fun pe => { pe with children := pe.children.filter (fun cid => decide (cid ≠ id)) }) k = some e := hke
  rw [alGet_modify] at hke'
  by_cases hkp : k = parentId
  · rw [if_pos hkp] at hke'
    cases hm : alGet t.entries parentId with
    | none =>
      rw [hm] at hke'
      cases hke'
    | some pe =>
      rw [hm] at hke'
      cases hke'
      simp only [List.mem_filter, decide_eq_true_eq] at hin
      exact hin.2 rfl
  · rw [if_neg hkp] at hke'
    obtain ⟨ec, hec, hecp⟩ := h.1.2.1 k e hke' id hin
    rw [hid] at hec
    cases hec
    exact hkp (Option.some.inj (hecp.symm.trans hpar))

theorem invt_delete {t : FileTree} (fs : Fs) (id : Nat) (h : InvT t) :
    InvT (t.delete fs id).1 := by
  by_cases hroot : id = t.root
  · have hres : (t.delete fs id).1 = t := by
      simp [FileTree.delete, hroot]
    rw [hres]
    exact h
  · cases hid : alGet t.entries id with
    | none =>
      have hres : (t.delete fs id).1 = t := by
        simp [FileTree.delete, hroot, hid]
      rw [hres]
      exact h
    | some entry =>
      cases hrm : fs.removeRes entry.path with
      | some e =>
        have hres : (t.delete fs id).1 = t := by
          simp [FileTree.delete, hroot, hid, hrm]
        rw [hres]
        exact h
      | none =>
        cases hpar : entry.parent with
        | none =>
          have hres : (t.delete fs id).1 = t := by
            simp [FileTree.delete, hroot, hid, hrm, hpar]
          rw [hres]
          exact h
        | some parentId =>
          have h2 := invt_detach_delete h hid hpar
            (modifyEntry t parentId fun pe => { pe with children := pe.children.filter (fun cid => decide (cid ≠ id)) }).entries.length
          simp only [FileTree.delete]
          rw [if_neg hroot]
          simp only [hid, hrm, hpar]
          exact invt_of_entries_eq rfl rfl h2

theorem invt_create {t : FileTree} (fs : Fs) (ck : CreateEntryKind) (h : InvT t) :
    InvT (t.create fs ck).1 := by
  cases hsel : alGet t.entries t.selected with
  | none =>
    have hres : (t.create fs ck).1 = t := by
      simp [FileTree.create, hsel]
    rw [hres]
    exact h
  | some entry =>
    cases hk : entry.kind with
    | Folder =>
      cases ck with
      | folder path =>
        cases hio : fs.createDirRes (entry.path ++ path) with
        | some e =>
          have hres : (t.create fs (.folder path)).1 = t := by
            simp [FileTree.create, hsel, hk, hio]
          rw [hres]
          exact h
        | none =>
          have hres : (t.create fs (.folder path)).1 =
              ((t.add t.selected path .Folder).1.reset_visible fs t.selected) := by
            simp [FileTree.create, hsel, hk, hio]
          rw [hres]
          exact invt_reset_visible fs t.selected (invt_add h t.selected path .Folder)
      | file path =>
        cases hio : fs.createFileRes (entry.path ++ path) with
        | some e =>
          have hres : (t.create fs (.file path)).1 = t := by
            simp [FileTree.create, hsel, hk, hio]
          rw [hres]
          exact h
        | none =>
          have hres : (t.create fs (.file path)).1 =
              ((t.add t.selected path .File).1.reset_visible fs t.selected) := by
            simp [FileTree.create, hsel, hk, hio]
          rw [hres]
          exact invt_reset_visible fs t.selected (invt_add h t.selected path .File)
    | File =>
      cases hp : entry.parent with
      | none =>
        have hres : (t.create fs ck).1 = t := by
          cases ck <;> simp [FileTree.create, hsel, hk, hp]
        rw [hres]
        exact h
      | some pid =>
        cases ck with
        | folder path =>
          cases hio : fs.createDirRes (((alGet t.entries pid).getD junkEntry).path ++ path) with
          | some e =>
            have hres : (t.create fs (.folder path)).1 = t := by
              simp [FileTree.create, hsel, hk, hp, hio]
            rw [hres]
            exact h
          | none =>
            have hres : (t.create fs (.folder path)).1 =
                ((t.add t.selected path .Folder).1.reset_visible fs pid) := by
              simp [FileTree.create, hsel, hk, hp, hio]
            rw [hres]
            exact invt_reset_visible fs pid (invt_add h t.selected path .Folder)
        | file path =>
          cases hio : fs.createFileRes (((alGet t.entries pid).getD junkEntry).path ++ path) with
          | some e =>
            have hres : (t.create fs (.file path)).1 = t := by
              simp [FileTree.create, hsel, hk, hp, hio]
            rw [hres]
            exact h
          | none =>
            have hres : (t.create fs (.file path)).1 =
                ((t.add t.selected path .File).1.reset_visible fs pid) := by
              simp [FileTree.create, hsel, hk, hp, hio]
            rw [hres]
            exact invt_reset_visible fs pid (invt_add h t.selected path .File)

theorem invt_batchDeleteGo (fs : Fs) (root : Nat) :
    ∀ (ids : List Nat) (t : FileTree), InvT t →
    InvT (batchDeleteGo fs root t ids).1 := by
  intro ids
  induction ids with
  | nil =>
    intro t h
    exact h
  | cons id rest ih =>
    intro t h
    by_cases hroot : id = root
    · have hres : (batchDeleteGo fs root t (id :: rest)).1 = t := by
        simp [batchDeleteGo, hroot]
      rw [hres]
      exact h
    · cases hid : alGet t.entries id with
      | none =>
        have hres : (batchDeleteGo fs root t (id :: rest)).1 = t := by
          simp [batchDeleteGo, hroot, hid]
        rw [hres]
        exact h
      | some entry =>
        cases hrm : fs.removeRes entry.path with
        | some e =>
          by_cases hnf : e = .notFound
          · have hres : (batchDeleteGo fs root t (id :: rest)).1 =
                (batchDeleteGo fs root t rest).1 := by
              simp [batchDeleteGo, hroot, hid, hrm, hnf]
            rw [hres]
            exact ih t h
          · have hres : (batchDeleteGo fs root t (id :: rest)).1 = t := by
              simp [batchDeleteGo, hroot, hid, hrm, hnf]
            rw [hres]
            exact h
        | none =>
          cases hpar : entry.parent with
          | none =>
            have hres : (batchDeleteGo fs root t (id :: rest)).1 = t := by
              simp [batchDeleteGo, hroot, hid, hrm, hpar]
            rw [hres]
            exact h
          | some pid =>
            have h2 := invt_detach_delete h hid hpar
              (modifyEntry t pid fun pe => { pe with children := pe.children.filter (fun cid => decide (cid ≠ id)) }).entries.length
            have hres : (batchDeleteGo fs root t (id :: rest)).1 =
                (batchDeleteGo fs root (delete_recursive (modifyEntry t pid fun pe => { pe with children := pe.children.filter (fun cid => decide (cid ≠ id)) }).entries.length (modifyEntry t pid fun pe => { pe with children := pe.children.filter (fun cid => decide (cid ≠ id)) }) id) rest).1 := by
              simp [batchDeleteGo, hroot, hid, hrm, hpar]
            rw [hres]
            exact ih _ h2

theorem invt_batch_delete {t : FileTree} (fs : Fs) (h : InvT t) :
    InvT (t.batch_delete fs).1 := by
  have hgo := invt_batchDeleteGo fs t.root t.temp t h
  unfold FileTree.batch_delete
  cases hrun : batchDeleteGo fs t.root t t.temp with
  | mk t1 ex =>
    have ht1 : InvT t1 := by
      rw [hrun] at hgo
      exact hgo
    cases ex with
    | finished =>
      cases hmin : minByPos t1.visible t1.temp with
      | none =>
        simp only [hmin]
        exact ht1
      | some mId =>
        simp only [hmin]
        exact invt_of_entries_eq rfl rfl ht1
    | earlyOk => exact ht1
    | earlyErr e => exact ht1
    | panicked => exact ht1

theorem invt_mark {t : FileTree} (h : InvT t) : InvT t.mark := by
  cases hsel : alGet t.entries t.selected with
  | none =>
    have hres : t.mark = t := by
      simp [FileTree.mark, hsel]
    rw [hres]
    exact h
  | some e =>
    have hres : t.mark = { t with entries := alModify t.entries t.selected (fun e => { e with marked := !e.marked }), temp := t.temp ++ [t.selected] } := by
      simp [FileTree.mark, hsel]
    rw [hres]
    refine ⟨?_, ?_⟩
    · exact invm_modify_generic (fun e => ⟨rfl, rfl⟩) (fun e => rfl)
        (fun e => List.Sublist.refl _) h.1
    · exact keysNodup_modify h.2

theorem invm_foldl_unmark {n : Nat} :
    ∀ (l : List Nat) (m : List (Nat × Entry)), InvM m n →
    InvM (l.foldl (fun m i => alModify m i (fun e => { e with marked := false })) m) n := by
  intro l
  induction l with
  | nil =>
    intro m h
    exact h
  | cons i rest ih =>
    intro m h
    exact ih _ (invm_modify_generic (fun e => ⟨rfl, rfl⟩) (fun e => rfl)
      (fun e => List.Sublist.refl _) h)

theorem keys_foldl_unmark :
    ∀ (l : List Nat) (m : List (Nat × Entry)),
    (l.foldl (fun m i => alModify m i (fun e => { e with marked := false })) m).map Prod.fst =
      m.map Prod.fst := by
  intro l
  induction l with
  | nil =>
    intro m
    rfl
  | cons i rest ih =>
    intro m
    simp only [List.foldl_cons]
    rw [ih, keys_alModify]

theorem invt_clear_marked {t : FileTree} (h : InvT t) : InvT t.clear_marked := by
  by_cases ht : t.temp.isEmpty
  · have hres : t.clear_marked = t := by
      simp [FileTree.clear_marked, ht]
    rw [hres]
    exact h
  · have hres : t.clear_marked = { t with entries := t.temp.foldl (fun m i => alModify m i (fun e => { e with marked := false })) t.entries, temp := [] } := by
      simp [FileTree.clear_marked, ht]
    rw [hres]
    refine ⟨invm_foldl_unmark t.temp t.entries h.1, ?_⟩
    unfold KeysNodup
    rw [keys_foldl_unmark]
    exact h.2

theorem invt_select_start {t : FileTree} (h : InvT t) : InvT t.select_start := by
  unfold FileTree.select_start
  split
  · exact h
  · exact invt_of_entries_eq rfl rfl h

theorem invt_select_end {t : FileTree} (h : InvT t) : InvT t.select_end := by
  unfold FileTree.select_end
  split
  · exact h
  · exact invt_of_entries_eq rfl rfl h

theorem invt_move_up {t : FileTree} (h : InvT t) : InvT t.move_up := by
  unfold FileTree.move_up
  split
  · split
    · exact invt_of_entries_eq rfl rfl h
    · exact h
  · exact h

theorem invt_move_down {t : FileTree} (h : InvT t) : InvT t.move_down := by
  unfold FileTree.move_down
  split
  · split
    · exact invt_of_entries_eq rfl rfl h
    · exact h
  · split
    · exact h
    · exact invt_of_entries_eq rfl rfl h

theorem invt_new (fs : Fs) (dir : Path) : InvT (FileTree.new fs dir) := by
  have h0 : InvT ({ entries := [(0, { path := dir, kind := .Folder, parent := none, children := [], expanded := true, visited := false, marked := false })], nextId := 1, root := 0, selected := 0, visible := [], view_offset := 0, temp := [], cache := [], create_flag := false, notify_modify := false, modify_from := none } : FileTree) := by
    refine ⟨⟨?_, ?_, ?_, ?_⟩, ?_⟩
    · intro k e hk
      by_cases h0k : (0 : Nat) = k
      · rw [alGet_cons, if_pos h0k] at hk
        cases hk
        exact List.Pairwise.nil
      · rw [alGet_cons, if_neg h0k] at hk
        exact absurd hk (by simp [alGet])
    · intro p ep hp c hcmem
      by_cases h0k : (0 : Nat) = p
      · rw [alGet_cons, if_pos h0k] at hp
        cases hp
        cases hcmem
      · rw [alGet_cons, if_neg h0k] at hp
        exact absurd hp (by simp [alGet])
    · intro k e hk
      by_cases h0k : (0 : Nat) = k
      · rw [alGet_cons, if_pos h0k] at hk
        cases hk
        subst h0k
        refine ⟨Nat.zero_lt_one, ?_⟩
        intro c hc
        cases hc
      · rw [alGet_cons, if_neg h0k] at hk
        exact absurd hk (by simp [alGet])
    · intro k e hk c hc
      by_cases h0k : (0 : Nat) = k
      · rw [alGet_cons, if_pos h0k] at hk
        cases hk
        cases hc
      · rw [alGet_cons, if_neg h0k] at hk
        exact absurd hk (by simp [alGet])
    · simp [KeysNodup]
  have h1 := @invt_foldl_add 0 (fs.listing dir) _ h0
  exact invt_of_entries_eq rfl rfl h1

/-- Modifying an entry that occurs in no children list may change even
its key (kind/path) and parent, as long as its own children stay put. -/
theorem invm_modify_nonmember {m : List (Nat × Entry)} {n : Nat} {id : Nat} {f : Entry → Entry}
    (hch : ∀ e, (f e).children = e.children)
    (hnm : ∀ k e, alGet m k = some e → ¬ id ∈ e.children)
    (h : InvM m n) : InvM (alModify m id f) n := by
  obtain ⟨hs, hc, hb, hu⟩ := h
  have hne : ∀ (l : List Nat), ¬ id ∈ l → ∀ x ∈ l,
      keyAt (alModify m id f) x = keyAt m x := by
    intro l hl x hx
    exact keyAt_modify_ne (fun hxid => hl (hxid ▸ hx))
  refine ⟨?_, ?_, ?_, ?_⟩
  · intro k e hk
    rw [alGet_modify] at hk
    by_cases hkid : k = id
    · rw [if_pos hkid] at hk
      cases hm : alGet m id with
      | none =>
        rw [hm] at hk
        cases hk
      | some e₀ =>
        rw [hm] at hk
        cases hk
        rw [hch e₀]
        exact pairwise_leE_congr (hne e₀.children (hnm id e₀ hm)) (hs id e₀ hm)
    · rw [if_neg hkid] at hk
      exact pairwise_leE_congr (hne e.children (hnm k e hk)) (hs k e hk)
  · intro p ep hp c hcmem
    rw [alGet_modify] at hp
    by_cases hpid : p = id
    · rw [if_pos hpid] at hp
      cases hm : alGet m id with
      | none =>
        rw [hm] at hp
        cases hp
      | some e₀ =>
        rw [hm] at hp
        cases hp
        rw [hch e₀] at hcmem
        obtain ⟨ec, hec, hecp⟩ := hc id e₀ hm c hcmem
        have hcne : ¬ c = id := fun hcid => hnm id e₀ hm (hcid ▸ hcmem)
        refine ⟨ec, ?_, hpid ▸ hecp⟩
        rw [alGet_modify, if_neg hcne]
        exact hec
    · rw [if_neg hpid] at hp
      obtain ⟨ec, hec, hecp⟩ := hc p ep hp c hcmem
      have hcne : ¬ c = id := fun hcid => hnm p ep hp (hcid ▸ hcmem)
      refine ⟨ec, ?_, hecp⟩
      rw [alGet_modify, if_neg hcne]
      exact hec
  · intro k e hk
    rw [alGet_modify] at hk
    by_cases hkid : k = id
    · rw [if_pos hkid] at hk
      cases hm : alGet m id with
      | none =>
        rw [hm] at hk
        cases hk
      | some e₀ =>
        rw [hm] at hk
        cases hk
        obtain ⟨h1, h2⟩ := hb id e₀ hm
        refine ⟨hkid ▸ h1, ?_⟩
        intro c hcmem
        rw [hch e₀] at hcmem
        exact h2 c hcmem
    · rw [if_neg hkid] at hk
      exact hb k e hk
  · intro k e hk c hcmem
    rw [alGet_modify] at hk
    by_cases hkid : k = id
    · rw [if_pos hkid] at hk
      cases hm : alGet m id with
      | none =>
        rw [hm] at hk
        cases hk
      | some e₀ =>
        rw [hm] at hk
        cases hk
        rw [hch e₀] at hcmem
        exact hkid ▸ hu id e₀ hm c hcmem
    · rw [if_neg hkid] at hk
      exact hu k e hk c hcmem

theorem invt_modify_nonmember {t : FileTree} {id : Nat} {f : Entry → Entry}
    (hch : ∀ e, (f e).children = e.children)
    (hnm : ∀ k e, alGet t.entries k = some e → ¬ id ∈ e.children)
    (h : InvT t) : InvT (modifyEntry t id f) :=
  ⟨invm_modify_nonmember hch hnm h.1, keysNodup_modify h.2⟩

/-- After detaching `id` from its recorded parent, `id` occurs in no
children list at all. -/
theorem not_mem_after_detach {t : FileTree} {id parentId : Nat} {entry : Entry}
    (h : InvT t) (hid : alGet t.entries id = some entry)
    (hpar : entry.parent = some parentId) :
    ∀ k e, alGet (alModify t.entries parentId fun pe => { pe with children := pe.children.filter (fun c => decide (c ≠ id)) }) k = some e → ¬ id ∈ e.children := by
  intro k e hke hin
  rw [alGet_modify] at hke
  by_cases hkp : k = parentId
  · rw [if_pos hkp] at hke
    cases hm : alGet t.entries parentId with
    | none =>
      rw [hm] at hke
      cases hke
    | some pe =>
      rw [hm] at hke
      cases hke
      simp only [List.mem_filter, decide_eq_true_eq] at hin
      exact hin.2 rfl
  · rw [if_neg hkp] at hke
    obtain ⟨ec, hec, hecp⟩ := h.1.2.1 k e hke id hin
    rw [hid] at hec
    cases hec
    exact hkp (Option.some.inj (hecp.symm.trans hpar))

/-- One iteration of `batch_move`'s loop (the case where the moved entry
has a recorded parent) preserves the invariant. -/
theorem invt_move_one {t : FileTree} {id oldParent newParent : Nat} {np : Path}
    (h : InvT t)
    (hp : ((alGet t.entries id).getD junkEntry).parent = some oldParent) :
    InvT (modifyEntry (modifyEntry (modifyEntry (modifyEntry (modifyEntry (modifyEntry t oldParent fun pe => { pe with children := pe.children.filter (fun cid => decide (cid ≠ id)) }) oldParent fun pe => { pe with visited := false }) oldParent fun pe => { pe with expanded := false }) oldParent fun pe => { pe with children := [] }) id fun e => { e with path := np, marked := false, parent := some newParent }) newParent fun e => { e with visited := false, expanded := false, children := [] }) := by
  refine invt_modify_generic (fun e => ⟨rfl, rfl⟩) (fun e => rfl)
    (fun e => List.nil_sublist _) ?_
  refine invt_modify_nonmember (fun e => rfl) ?_ ?_
  · intro k e hke hin
    have hke' := hke
    simp only [modifyEntry] at hke'
    rw [alGet_modify] at hke'
    by_cases hkp : k = oldParent
    · rw [if_pos hkp] at hke'
      rw [Option.map_eq_some'] at hke'
      obtain ⟨e3, he3, hfe⟩ := hke'
      rw [← hfe] at hin
      simp at hin
    · rw [if_neg hkp, alGet_modify, if_neg hkp, alGet_modify, if_neg hkp,
          alGet_modify, if_neg hkp] at hke'
      obtain ⟨ec, hec, hecp⟩ := h.1.2.1 k e hke' id hin
      rw [hec] at hp
      simp only [Option.getD_some] at hp
      exact hkp (Option.some.inj (hecp.symm.trans hp))
  · refine invt_modify_generic (fun e => ⟨rfl, rfl⟩) (fun e => rfl)
      (fun e => List.nil_sublist _) ?_
    refine invt_modify_generic (fun e => ⟨rfl, rfl⟩) (fun e => rfl)
      (fun e => List.Sublist.refl _) ?_
    refine invt_modify_generic (fun e => ⟨rfl, rfl⟩) (fun e => rfl)
      (fun e => List.Sublist.refl _) ?_
    exact invt_modify_generic (fun e => ⟨rfl, rfl⟩) (fun e => rfl)
      (fun e => List.filter_sublist _) h

/-- The variant where the moved entry has no recorded parent: it cannot
occur in any children list (coherence), so it is modified in place. -/
theorem invt_move_one_orphan {t : FileTree} {id newParent : Nat} {np : Path}
    (h : InvT t)
    (hp : ((alGet t.entries id).getD junkEntry).parent = none) :
    InvT (modifyEntry (modifyEntry t id fun e => { e with path := np, marked := false, parent := some newParent }) newParent fun e => { e with visited := false, expanded := false, children := [] }) := by
  refine invt_modify_generic (fun e => ⟨rfl, rfl⟩) (fun e => rfl)
    (fun e => List.nil_sublist _) ?_
  refine invt_modify_nonmember (fun e => rfl) ?_ h
  intro k e hke hin
  obtain ⟨ec, hec, hecp⟩ := h.1.2.1 k e hke id hin
  rw [hec] at hp
  simp only [Option.getD_some] at hp
  rw [hp] at hecp
  cases hecp

theorem invt_batchMoveGo (fs : Fs) (root newParent : Nat) :
    ∀ (ids : List Nat) (t : FileTree) (tr : List (Path × Path)), InvT t →
    InvT (batchMoveGo fs root newParent t ids tr).1 := by
  intro ids
  induction ids with
  | nil =>
    intro t tr h
    exact h
  | cons id rest ih =>
    intro t tr h
    by_cases hroot : id = root
    · have hres : (batchMoveGo fs root newParent t (id :: rest) tr).1 =
          (batchMoveGo fs root newParent t rest tr).1 := by
        simp [batchMoveGo, hroot]
      rw [hres]
      exact ih t tr h
    · cases hlast : ((alGet t.entries id).getD junkEntry).path.getLast? with
      | none =>
        have hres : (batchMoveGo fs root newParent t (id :: rest) tr).1 = t := by
          simp [batchMoveGo, hroot, hlast]
        rw [hres]
        exact h
      | some filename =>
        cases hrn : fs.renameRes ((alGet t.entries id).getD junkEntry).path (((alGet t.entries newParent).getD junkEntry).path ++ [filename]) with
        | some e =>
          have hres : (batchMoveGo fs root newParent t (id :: rest) tr).1 = t := by
            simp [batchMoveGo, hroot, hlast, hrn]
          rw [hres]
          exact h
        | none =>
          cases hp : ((alGet t.entries id).getD junkEntry).parent with
          | some oldParent =>
            have h3 := @invt_move_one t id oldParent newParent
              (((alGet t.entries newParent).getD junkEntry).path ++ [filename]) h hp
            have hres : (batchMoveGo fs root newParent t (id :: rest) tr).1 =
                (batchMoveGo fs root newParent (modifyEntry (modifyEntry (modifyEntry (modifyEntry (modifyEntry (modifyEntry t oldParent fun pe => { pe with children := pe.children.filter (fun cid => decide (cid ≠ id)) }) oldParent fun pe => { pe with visited := false }) oldParent fun pe => { pe with expanded := false }) oldParent fun pe => { pe with children := [] }) id fun e => { e with path := ((alGet t.entries newParent).getD junkEntry).path ++ [filename], marked := false, parent := some newParent }) newParent fun e => { e with visited := false, expanded := false, children := [] }) rest (tr ++ [(((alGet t.entries id).getD junkEntry).path, ((alGet t.entries newParent).getD junkEntry).path ++ [filename])])).1 := by
              simp [batchMoveGo, hroot, hlast, hrn, hp]
            rw [hres]
            exact ih _ _ h3
          | none =>
            have h3 := @invt_move_one_orphan t id newParent
              (((alGet t.entries newParent).getD junkEntry).path ++ [filename]) h hp
            have hres : (batchMoveGo fs root newParent t (id :: rest) tr).1 =
                (batchMoveGo fs root newParent (modifyEntry (modifyEntry t id fun e => { e with path := ((alGet t.entries newParent).getD junkEntry).path ++ [filename], marked := false, parent := some newParent }) newParent fun e => { e with visited := false, expanded := false, children := [] }) rest (tr ++ [(((alGet t.entries id).getD junkEntry).path, ((alGet t.entries newParent).getD junkEntry).path ++ [filename])])).1 := by
              simp [batchMoveGo, hroot, hlast, hrn, hp]
            rw [hres]
            exact ih _ _ h3

theorem invt_sort_children {t : FileTree} (p : Nat) (h : InvT t) :
    InvT (t.sort_children p) :=
  ⟨inv_sort_children p h.1, keysNodup_modify h.2⟩

theorem invt_batch_move {t : FileTree} (fs : Fs) (h : InvT t) :
    InvT (t.batch_move fs).1 := by
  by_cases hnp : (alGet t.entries t.selected).isSome
  · have hgo := invt_batchMoveGo fs t.root t.selected t.temp t [] h
    cases hrun : batchMoveGo fs t.root t.selected t t.temp [] with
    | mk t1 p =>
      have ht1 : InvT t1 := by
        rw [hrun] at hgo
        exact hgo
      cases p with
      | mk oe tr =>
        cases oe with
        | some e =>
          have hres : (t.batch_move fs).1 = t1 := by
            simp [FileTree.batch_move, hnp, hrun]
          rw [hres]
          exact ht1
        | none =>
          have hres : (t.batch_move fs).1 = { { t1.sort_children t.selected with temp := [] } with visible := ({ t1.sort_children t.selected with temp := ([] : List Nat) } : FileTree).visible_entries } := by
            simp [FileTree.batch_move, hnp, hrun]
          rw [hres]
          exact invt_of_entries_eq rfl rfl (invt_sort_children t.selected ht1)
  · have hres : (t.batch_move fs).1 = t := by
      simp [FileTree.batch_move, hnp]
    rw [hres]
    exact h

theorem invt_sel_repair {t2 : FileTree} (h2 : InvT t2) :
    InvT (if (alGet t2.entries t2.selected).isNone then { t2 with selected := (t2.visible.getD (((t2.visible.findIdx? (fun v => decide (v.id = t2.selected))).getD 1) - 1) ⟨0, 0⟩).id } else t2) := by
  split
  · exact invt_of_entries_eq rfl rfl h2
  · exact h2

set_option maxHeartbeats 2000000 in
theorem invt_handle_notify {t : FileTree} (fs : Fs) (ev : NotifyEvent) (h : InvT t) :
    InvT (t.handle_notify fs ev).1 := by
  by_cases hds : pathIsDSStore ev.path
  · have hres : (t.handle_notify fs ev).1 = t := by
      simp [FileTree.handle_notify, hds]
    rw [hres]
    exact h
  · simp only [FileTree.handle_notify]
    rw [if_neg hds]
    cases hkind : ev.kind with
    | createFile =>
      simp only
      cases hpp : pathParent ev.path with
      | none =>
        simp only [hpp]
        exact h
      | some parentPath =>
        simp only [hpp]
        cases hfind : alFindByPath t.entries parentPath with
        | none =>
          simp only [hfind]
          exact h
        | some pr =>
          obtain ⟨pid, pentry⟩ := pr
          simp only [hfind]
          cases hexp : pentry.expanded with
          | true =>
            simp only [hexp, if_true]
            exact invt_reset_visible fs pid (invt_add h pid ev.path .File)
          | false =>
            simp only [hexp, Bool.false_eq_true, if_false]
            exact invt_modify_generic (fun e => ⟨rfl, rfl⟩) (fun e => rfl)
              (fun e => List.nil_sublist _) (invt_add h pid ev.path .File)
    | createFolder =>
      simp only
      cases hpp : pathParent ev.path with
      | none =>
        simp only [hpp]
        exact h
      | some parentPath =>
        simp only [hpp]
        cases hfind : alFindByPath t.entries parentPath with
        | none =>
          simp only [hfind]
          exact h
        | some pr =>
          obtain ⟨pid, pentry⟩ := pr
          simp only [hfind]
          cases hexp : pentry.expanded with
          | true =>
            simp only [hexp, if_true]
            exact invt_reset_visible fs pid (invt_add h pid ev.path .Folder)
          | false =>
            simp only [hexp, Bool.false_eq_true, if_false]
            exact invt_modify_generic (fun e => ⟨rfl, rfl⟩) (fun e => rfl)
              (fun e => List.nil_sublist _) (invt_add h pid ev.path .Folder)
    | createOther => exact h
    | removeFile =>
      simp only
      cases hfind : alFindByPath t.entries ev.path with
      | none =>
        simp only [hfind]
        exact h
      | some pr =>
        obtain ⟨id, entry⟩ := pr
        simp only [hfind]
        cases hpar : entry.parent with
        | none =>
          simp only [hpar]
          exact h
        | some pid =>
          simp only [hpar]
          by_cases hroot : id = t.root
          · rw [if_pos hroot]
            exact h
          · rw [if_neg hroot]
            have hid : alGet t.entries id = some entry :=
              alGet_of_mem_nodup h.2 (alFindByPath_mem hfind)
            have h2 := invt_detach_delete h hid hpar
              (modifyEntry t pid fun pe => { pe with children := pe.children.filter (fun c => decide (c ≠ id)) }).entries.length
            exact invt_reset_visible fs pid (invt_sel_repair h2)
    | removeFolder =>
      simp only
      cases hfind : alFindByPath t.entries ev.path with
      | none =>
        simp only [hfind]
        exact h
      | some pr =>
        obtain ⟨id, entry⟩ := pr
        simp only [hfind]
        cases hpar : entry.parent with
        | none =>
          simp only [hpar]
          exact h
        | some pid =>
          simp only [hpar]
          by_cases hroot : id = t.root
          · rw [if_pos hroot]
            exact h
          · rw [if_neg hroot]
            have hid : alGet t.entries id = some entry :=
              alGet_of_mem_nodup h.2 (alFindByPath_mem hfind)
            have h2 := invt_detach_delete h hid hpar
              (modifyEntry t pid fun pe => { pe with children := pe.children.filter (fun c => decide (c ≠ id)) }).entries.length
            exact invt_reset_visible fs pid (invt_sel_repair h2)
    | removeOther => exact h
    | renameAny =>
      simp only
      cases hnmod : t.notify_modify with
      | false =>
        simp only [hnmod]
        rw [if_pos trivial]
        exact invt_of_entries_eq rfl rfl h
      | true =>
        simp only [hnmod, Bool.true_eq_false]
        rw [if_neg not_false]
        cases hmf : t.modify_from with
        | none =>
          simp only [hmf]
          exact invt_of_entries_eq rfl rfl h
        | some pathFrom =>
          simp only [hmf]
          cases hfindO : alFindByPath t.entries pathFrom with
          | none =>
            simp only [hfindO]
            exact invt_of_entries_eq rfl rfl h
          | some prO =>
            obtain ⟨oldId, oldEntry⟩ := prO
            cases hppn : pathParent ev.path with
            | none =>
              simp only [hppn]
              exact invt_of_entries_eq rfl rfl h
            | some pp =>
              simp only [hppn]
              cases hfindN : alFindByPath t.entries pp with
              | none =>
                simp only [hfindN]
                exact invt_of_entries_eq rfl rfl h
              | some prN =>
                obtain ⟨newPid, npe⟩ := prN
                simp only [hfindN]
                cases hparO : oldEntry.parent with
                | none =>
                  simp only [hparO]
                  exact invt_of_entries_eq rfl rfl h
                | some oldPid =>
                  simp only [hparO]
                  by_cases hroot : oldId = t.root
                  · rw [if_pos hroot]
                    exact invt_of_entries_eq rfl rfl h
                  · rw [if_neg hroot]
                    have hid : alGet t.entries oldId = some oldEntry :=
                      alGet_of_mem_nodup h.2 (alFindByPath_mem hfindO)
                    have h0 : InvT ({ t with notify_modify := false, modify_from := some pathFrom } : FileTree) :=
                      invt_of_entries_eq rfl rfl h
                    have ha : InvT (modifyEntry ({ t with notify_modify := false, modify_from := some pathFrom } : FileTree) oldPid fun pe => { pe with children := pe.children.filter (fun c => decide (c ≠ oldId)) }) :=
                      invt_modify_generic (fun e => ⟨rfl, rfl⟩) (fun e => rfl)
                        (fun e => List.filter_sublist _) h0
                    have hdet := not_mem_after_detach h hid hparO
                    have hb2 : InvT (modifyEntry (modifyEntry ({ t with notify_modify := false, modify_from := some pathFrom } : FileTree) oldPid fun pe => { pe with children := pe.children.filter (fun c => decide (c ≠ oldId)) }) oldId fun e => { e with parent := some newPid, path := ev.path }) :=
                      invt_modify_nonmember (fun e => rfl) hdet ha
                    exact invt_of_entries_eq rfl rfl
                      (invt_reset_visible fs newPid (invt_reset_visible fs oldId hb2))
    | otherKind => exact h

/-- Every single mutation preserves the invariant. -/
theorem invt_step {t t' : FileTree} (hstep : Step t t') (h : InvT t) : InvT t' := by
  cases hstep with
  | enter fs => exact invt_enter fs h
  | create fs s ck => exact invt_create fs ck h
  | delete fs s id => exact invt_delete fs id h
  | batchDelete fs => exact invt_batch_delete fs h
  | batchMove fs => exact invt_batch_move fs h
  | mark => exact invt_mark h
  | clearMarked => exact invt_clear_marked h
  | selectStart => exact invt_select_start h
  | selectEnd => exact invt_select_end h
  | moveUp => exact invt_move_up h
  | moveDown => exact invt_move_down h
  | handleNotify fs s ev => exact invt_handle_notify fs ev h
  | replace fs s dir => exact invt_new fs dir

/-- The invariant holds in every reachable state. -/
theorem reachable_invt {t : FileTree} (h : Reachable t) : InvT t := by
  obtain ⟨fs, dir, hr⟩ := h
  induction hr with
  | refl => exact invt_new fs dir
  | tail hsteps hstep ih => exact invt_step hstep ih

end Files

/-- C4: in every reachable tree state (any mutation sequence after
construction), every entry's children list is sorted: every adjacent
pair (a, b) satisfies a <= b under the ordering policy `cmp_entries`
(Folder before File when kinds differ, otherwise path order). -/
theorem c4_children_sorted (t : Files.FileTree) (h : Files.Reachable t) :
    ∀ id e, alGet t.entries id = some e →
      e.children.Chain' (fun a b => Files.cmp_entries t.entries a b ≠ .gt) := by
  intro id e he
  have hinv := Files.reachable_invt h
  exact List.Pairwise.chain' (hinv.1.1 id e he)

/-- C4 witness: the freshly constructed demo tree is reachable, and its
root's children list is sorted under the ordering policy. -/
theorem c4_children_sorted_witness :
    ((alGet Files.tNew.entries 0).getD Files.junkEntry).children.Chain'
      (fun a b => Files.cmp_entries Files.tNew.entries a b ≠ .gt) :=
  c4_children_sorted Files.tNew ⟨Files.fsDemo, ["r"], Relation.ReflTransGen.refl⟩ 0
    ((alGet Files.tNew.entries 0).getD Files.junkEntry) (by decide)

end FilesSpec

